import Mathlib

/-!
Verification of the "War" sweep-probability notebook.

The source program computes the probability that player A wins every turn
of the card game War.  It has two computations:

* a brute-force oracle: `make_deck`, `sweep`, `p_sweeps` over all
  `permutations` of a concrete deck;
* the abstract incremental engine: `make_abdeck`, `remove`, `play_turn`,
  `p_sweep` over canonical count-sequences ("abstract decks").

Both are embedded below over exact rationals (the Python code uses floats;
the claims are stated for the exact-rational embedding).
-/

set_option maxHeartbeats 1000000

namespace War

/-! ### Concrete (brute-force) side, from the source -/

/-- `make_deck(ranks, suits)`: a list of ranks, each rank repeated `suits`
times (`[r + 1 for r in range(ranks) for _ in range(suits)]`). -/
def make_deck (ranks suits : ℕ) : List ℕ :=
  (List.range ranks).flatMap (fun r => List.replicate suits (r + 1))

/-- `sweep(deck)`: `all(deck[i] > deck[i + 1] for i in range(0, len(deck), 2))`.
Python's `all` short-circuits; on an odd-length deck whose every complete
pair is a win for A, the final `deck[i + 1]` raises `IndexError`, modelled
here as `none`. -/
def sweepO : List ℕ → Option Bool
  | [] => some true
  | [_] => none
  | a :: b :: rest => if b < a then sweepO rest else some false

/-- Fuel-indexed helper for `permutations`. -/
def permsAux : ℕ → List ℕ → List (List ℕ)
  | 0, _ => [[]]
  | fuel + 1, l =>
      (List.range l.length).flatMap
        (fun i => (permsAux fuel (l.eraseIdx i)).map (fun t => l.getD i 0 :: t))

/-- `itertools.permutations(l)`: all `n!` orderings of the `n` positions of
`l` (elements treated as unique by position), enumerated by selecting the
element for the first slot and recursing. -/
def permutations (l : List ℕ) : List (List ℕ) := permsAux l.length l

/-- `p_sweeps(decks)`: `mean(sweep(deck) for deck in decks)`, over exact
rationals; `none` when some `sweep` call raises or when `mean` sees an
empty sequence (`statistics.mean` raises on empty input). -/
def p_sweeps (decks : List (List ℕ)) : Option ℚ :=
  match decks.mapM sweepO with
  | none => none
  | some bs =>
      if bs.isEmpty then none
      else some (((bs.map (fun b => if b then (1 : ℚ) else 0)).sum) / (bs.length : ℚ))

/-! ### Abstract side, from the source -/

/-- `AbDeck`: a tuple of counts of cards per remaining rank. -/
abbrev AbDeck := List ℕ

/-- `make_abdeck(ranks, suits) = AbDeck([suits] * ranks)`. -/
def make_abdeck (ranks suits : ℕ) : AbDeck := List.replicate ranks suits

/-- `PDist`: a probability distribution `{abstract_deck: probability}`,
embedded as an association list with unique keys. -/
abbrev PDist := List (AbDeck × ℚ)

/-- `P1[k] += v` on a `Counter`: accumulate into the existing entry for `k`
(default 0 when absent). -/
def addMass : PDist → AbDeck → ℚ → PDist
  | [], k, v => [(k, v)]
  | (kv :: rest), k, v =>
      if k = kv.1 then (kv.1, kv.2 + v) :: rest else kv :: addMass rest k v

/-- `P[k]`: mass of `k` in `P`, 0 when absent. -/
def lookupMass : PDist → AbDeck → ℚ
  | [], _ => 0
  | (kv :: rest), k => if k = kv.1 then kv.2 else lookupMass rest k

/-- `sum(P.values())`. -/
def total (P : PDist) : ℚ := (P.map Prod.snd).sum

/-- `combinations(range(n), 2)`: the pairs `(i, j)` with `i < j < n`, in
lexicographic order. -/
def combinations2 (n : ℕ) : List (ℕ × ℕ) :=
  (List.range n).flatMap (fun i => (((List.range n).drop (i + 1)).map (fun j => (i, j))))

/-- `remove(deck, *indexes)`:
`counts = [c - indexes.count(i) for i, c in enumerate(deck)]` then
`AbDeck(sorted(c for c in counts if c > 0))`.  (Python's arithmetic can
make `c - indexes.count(i)` negative; truncated subtraction on `ℕ` gives 0
there, and both are discarded by the positivity filter.) -/
def remove (deck : List ℕ) (indexes : List ℕ) : AbDeck :=
  ((deck.mapIdx (fun i c => c - indexes.count i)).filter
      (fun c => decide (0 < c))).insertionSort (· ≤ ·)

/-- The mass `P[deck] * deck[i] / n * deck[j] / (n - 1)` contributed by
the pair `ij` of rank positions (with `n = sum(deck)`). -/
def turnMass (m : ℚ) (s : AbDeck) (ij : ℕ × ℕ) : ℚ :=
  m * (s.getD ij.1 0 : ℚ) / (s.sum : ℚ) * (s.getD ij.2 0 : ℚ) / ((s.sum : ℚ) - 1)

/-- `play_turn(P)`: for each `deck` in `P` and each `i, j` in
`combinations(range(len(deck)), 2)`, accumulate
`P[deck] * deck[i] / n * deck[j] / (n - 1)` into `P1[remove(deck, i, j)]`. -/
def play_turn (P : PDist) : PDist :=
  P.foldl
    (fun acc e =>
      (combinations2 e.1.length).foldl
        (fun acc2 ij => addMass acc2 (remove e.1 [ij.1, ij.2]) (turnMass e.2 e.1 ij)) acc)
    []

/-- `p_sweep(deck)`: start from `{deck: 1.0}`, apply `play_turn` once per
turn (`sum(deck) // 2` turns, floor division), return `sum(P.values())`. -/
def p_sweep (deck : AbDeck) : ℚ :=
  total (play_turn^[deck.sum / 2] [(deck, 1)])

/-- The canonical-state predicate of the specification: every element is
at least 1 and the sequence is sorted ascending. -/
def Canonical (s : AbDeck) : Prop := s.Sorted (· ≤ ·) ∧ ∀ c ∈ s, 1 ≤ c

/-- Mass-weighted sum `Σ (s, m) ∈ P, m * F s`; `total` is the case `F = 1`. -/
def totalW (F : AbDeck → ℚ) (P : PDist) : ℚ := (P.map (fun e => e.2 * F e.1)).sum

/-! ### The accumulation layer: `addMass` as a keyed sum -/

theorem lookupMass_addMass (P : PDist) (k' : AbDeck) (v : ℚ) (k : AbDeck) :
    lookupMass (addMass P k' v) k = lookupMass P k + (if k = k' then v else 0) := by
  induction P with
  | nil =>
      by_cases h : k = k' <;> simp [addMass, lookupMass, h]
  | cons kv rest ih =>
      by_cases h : k' = kv.1
      · by_cases h2 : k = kv.1
        · have hk : k = k' := by rw [h2, h]
          simp [addMass, lookupMass, h, h2, hk]
        · have hk : ¬ k = k' := by rw [h]; exact h2
          simp [addMass, lookupMass, h, h2, hk]
      · by_cases h2 : k = kv.1
        · have hk : ¬ kv.1 = k' := fun hh => h hh.symm
          simp [addMass, lookupMass, h, h2, hk]
        · simp [addMass, lookupMass, h, h2, ih]

theorem totalW_addMass (F : AbDeck → ℚ) (P : PDist) (k : AbDeck) (v : ℚ) :
    totalW F (addMass P k v) = totalW F P + v * F k := by
  induction P with
  | nil => simp [addMass, totalW]
  | cons kv rest ih =>
      by_cases h : k = kv.1
      · simp only [addMass]
        rw [if_pos h, h]
        simp only [totalW, List.map_cons, List.sum_cons]
        ring
      · simp only [addMass]
        rw [if_neg h]
        simp only [totalW, List.map_cons, List.sum_cons] at ih ⊢
        rw [ih]; ring

theorem total_eq_totalW (P : PDist) : total P = totalW (fun _ => 1) P := by
  simp [total, totalW]

/-- Keys of `addMass P k v` are those of `P` plus possibly `k`. -/
theorem keys_addMass (P : PDist) (k : AbDeck) (v : ℚ) :
    ∀ e ∈ addMass P k v, e.1 ∈ P.map Prod.fst ∨ e.1 = k := by
  induction P with
  | nil =>
      intro e he
      simp [addMass] at he
      right; simp [he]
  | cons kv rest ih =>
      intro e he
      by_cases h : k = kv.1
      · simp only [addMass, if_pos h] at he
        rcases List.mem_cons.1 he with he | he
        · left; simp [he]
        · left
          simp only [List.map_cons, List.mem_cons]
          right; exact List.mem_map.2 ⟨e, he, rfl⟩
      · simp only [addMass, if_neg h] at he
        rcases List.mem_cons.1 he with he | he
        · left; simp [he]
        · rcases ih e he with h1 | h1
          · left; simp only [List.map_cons, List.mem_cons]; right; exact h1
          · right; exact h1

/-- Masses of `addMass P k v` stay nonnegative when `P`'s are and `0 ≤ v`. -/
theorem nonneg_addMass (P : PDist) (k : AbDeck) (v : ℚ)
    (hP : ∀ e ∈ P, 0 ≤ e.2) (hv : 0 ≤ v) : ∀ e ∈ addMass P k v, 0 ≤ e.2 := by
  induction P with
  | nil =>
      intro e he
      simp [addMass] at he
      simp [he, hv]
  | cons kv rest ih =>
      intro e he
      by_cases h : k = kv.1
      · simp only [addMass, if_pos h] at he
        rcases List.mem_cons.1 he with he | he
        · have h0 := hP kv (by simp)
          rw [he]
          exact add_nonneg h0 hv
        · exact hP e (List.mem_cons_of_mem _ he)
      · simp only [addMass, if_neg h] at he
        rcases List.mem_cons.1 he with he | he
        · rw [he]; exact hP kv (by simp)
        · exact ih (fun e' he' => hP e' (List.mem_cons_of_mem _ he')) e he

/-! ### `combinations2` facts -/

theorem drop_range (m n : ℕ) : (List.range n).drop m = List.range' m (n - m) := by
  induction m with
  | zero => simp [List.range_eq_range']
  | succ m ih =>
      rw [show m + 1 = m + 1 from rfl, ← List.drop_drop, ih]
      rcases Nat.lt_or_ge m n with h | h
      · have h2 : n - m = (n - (m + 1)) + 1 := by omega
        rw [h2, List.range'_succ]
        simp
      · have h2 : n - m = 0 := by omega
        have h3 : n - (m + 1) = 0 := by omega
        rw [h2, h3]
        simp

theorem mem_drop_range {j m n : ℕ} : j ∈ (List.range n).drop m ↔ m ≤ j ∧ j < n := by
  rw [drop_range, List.mem_range']
  constructor
  · rintro ⟨i, hi, rfl⟩; omega
  · intro ⟨h1, h2⟩; exact ⟨j - m, by omega, by omega⟩

theorem mem_combinations2 {n : ℕ} {p : ℕ × ℕ} :
    p ∈ combinations2 n ↔ p.1 < p.2 ∧ p.2 < n := by
  unfold combinations2
  rw [List.mem_flatMap]
  constructor
  · rintro ⟨i, hi, hp⟩
    rw [List.mem_map] at hp
    obtain ⟨j, hj, rfl⟩ := hp
    rw [mem_drop_range] at hj
    exact ⟨by omega, hj.2⟩
  · intro ⟨h1, h2⟩
    refine ⟨p.1, List.mem_range.2 (by omega), ?_⟩
    rw [List.mem_map]
    exact ⟨p.2, mem_drop_range.2 ⟨by omega, h2⟩, by simp⟩

theorem nodup_combinations2 (n : ℕ) : (combinations2 n).Nodup := by
  unfold combinations2
  rw [List.nodup_flatMap]
  constructor
  · intro i _
    exact ((List.nodup_range n).sublist (List.drop_sublist _ _)).map
      (fun a b h => by simpa using h)
  · refine List.Pairwise.imp ?_ (List.nodup_range n)
    intro i j hij
    intro p hp hq
    simp only [List.mem_map] at hp hq
    obtain ⟨a, _, rfl⟩ := hp
    obtain ⟨b, _, hb⟩ := hq
    exact hij (by simpa using congrArg Prod.fst hb.symm)

/-! ### `play_turn` as an explicit double sum -/

theorem lookupMass_foldl_addMass {α : Type} (l : List α) (key : α → AbDeck) (mass : α → ℚ)
    (P0 : PDist) (k : AbDeck) :
    lookupMass (l.foldl (fun acc x => addMass acc (key x) (mass x)) P0) k
      = lookupMass P0 k + (l.map (fun x => if k = key x then mass x else 0)).sum := by
  induction l generalizing P0 with
  | nil => simp
  | cons x t ih =>
      simp only [List.foldl_cons, List.map_cons, List.sum_cons]
      rw [ih, lookupMass_addMass]
      ring

theorem totalW_foldl_addMass {α : Type} (F : AbDeck → ℚ) (l : List α) (key : α → AbDeck)
    (mass : α → ℚ) (P0 : PDist) :
    totalW F (l.foldl (fun acc x => addMass acc (key x) (mass x)) P0)
      = totalW F P0 + (l.map (fun x => mass x * F (key x))).sum := by
  induction l generalizing P0 with
  | nil => simp
  | cons x t ih =>
      simp only [List.foldl_cons, List.map_cons, List.sum_cons]
      rw [ih, totalW_addMass]
      ring

theorem lookupMass_play_turn (P : PDist) (k : AbDeck) :
    lookupMass (play_turn P) k
      = (P.map (fun e => ((combinations2 e.1.length).map
          (fun ij => if k = remove e.1 [ij.1, ij.2] then turnMass e.2 e.1 ij else 0)).sum)).sum := by
  have aux : ∀ (Q : PDist) (acc : PDist),
      lookupMass (Q.foldl (fun a e => (combinations2 e.1.length).foldl
          (fun acc2 ij => addMass acc2 (remove e.1 [ij.1, ij.2]) (turnMass e.2 e.1 ij)) a) acc) k
        = lookupMass acc k
          + (Q.map (fun e => ((combinations2 e.1.length).map
              (fun ij => if k = remove e.1 [ij.1, ij.2] then turnMass e.2 e.1 ij else 0)).sum)).sum := by
    intro Q
    induction Q with
    | nil => simp
    | cons e t ih =>
        intro acc
        simp only [List.foldl_cons, List.map_cons, List.sum_cons]
        rw [ih, lookupMass_foldl_addMass]
        ring
  have h := aux P []
  simpa [play_turn, lookupMass] using h

theorem totalW_play_turn (F : AbDeck → ℚ) (P : PDist) :
    totalW F (play_turn P)
      = (P.map (fun e => ((combinations2 e.1.length).map
          (fun ij => turnMass e.2 e.1 ij * F (remove e.1 [ij.1, ij.2]))).sum)).sum := by
  have aux : ∀ (Q : PDist) (acc : PDist),
      totalW F (Q.foldl (fun a e => (combinations2 e.1.length).foldl
          (fun acc2 ij => addMass acc2 (remove e.1 [ij.1, ij.2]) (turnMass e.2 e.1 ij)) a) acc)
        = totalW F acc
          + (Q.map (fun e => ((combinations2 e.1.length).map
              (fun ij => turnMass e.2 e.1 ij * F (remove e.1 [ij.1, ij.2]))).sum)).sum := by
    intro Q
    induction Q with
    | nil => simp
    | cons e t ih =>
        intro acc
        simp only [List.foldl_cons, List.map_cons, List.sum_cons]
        rw [ih, totalW_foldl_addMass]
        ring
  have h := aux P []
  simpa [play_turn, totalW] using h

/-! ### Canonicity of produced states -/

theorem sorted_replicate (n a : ℕ) : (List.replicate n a).Sorted (· ≤ ·) := by
  induction n with
  | zero => simp
  | succ n ih =>
      rw [List.replicate_succ, List.sorted_cons]
      exact ⟨fun b hb => (List.eq_of_mem_replicate hb) ▸ le_rfl, ih⟩

theorem canonical_make_abdeck {r s : ℕ} (hs : 0 < s) : Canonical (make_abdeck r s) := by
  refine ⟨sorted_replicate r s, fun c hc => ?_⟩
  rw [List.eq_of_mem_replicate hc]
  exact hs

theorem canonical_remove (deck indexes : List ℕ) : Canonical (remove deck indexes) := by
  refine ⟨List.sorted_insertionSort _ _, fun c hc => ?_⟩
  have hmem := (List.perm_insertionSort (· ≤ ·) _).mem_iff.1 hc
  have := (List.mem_filter.1 hmem).2
  simpa using this

/-- Every key satisfying `Pred` stays that way through a fold of `addMass`
steps whose new keys satisfy `Pred`. -/
theorem pred_keys_foldl_addMass {α : Type} (Pred : AbDeck → Prop) (l : List α)
    (key : α → AbDeck) (mass : α → ℚ) (P0 : PDist)
    (h0 : ∀ e ∈ P0, Pred e.1) (hk : ∀ x ∈ l, Pred (key x)) :
    ∀ e ∈ l.foldl (fun acc x => addMass acc (key x) (mass x)) P0, Pred e.1 := by
  induction l generalizing P0 with
  | nil => exact h0
  | cons x t ih =>
      simp only [List.foldl_cons]
      refine ih _ ?_ (fun y hy => hk y (List.mem_cons_of_mem _ hy))
      intro e he
      rcases keys_addMass P0 (key x) (mass x) e he with h | h
      · rw [List.mem_map] at h
        obtain ⟨e', he', h1⟩ := h
        exact h1 ▸ h0 e' he'
      · exact h ▸ hk x (by simp)

/-- Every key of `play_turn P` is the image of some `remove` call. -/
theorem pred_keys_play_turn (Pred : AbDeck → Prop)
    (hrem : ∀ (s : AbDeck) (i j : ℕ), Pred (remove s [i, j])) (P : PDist) :
    ∀ e ∈ play_turn P, Pred e.1 := by
  have aux : ∀ (Q : PDist) (acc : PDist), (∀ e ∈ acc, Pred e.1) →
      ∀ e ∈ Q.foldl (fun a e => (combinations2 e.1.length).foldl
          (fun acc2 ij => addMass acc2 (remove e.1 [ij.1, ij.2]) (turnMass e.2 e.1 ij)) a) acc,
        Pred e.1 := by
    intro Q
    induction Q with
    | nil => intro acc h; exact h
    | cons e t ih =>
        intro acc hacc
        simp only [List.foldl_cons]
        exact ih _ (pred_keys_foldl_addMass Pred _ _ _ acc hacc
          (fun ij _ => hrem e.1 ij.1 ij.2))
  intro e he
  exact aux P [] (by simp) e he

theorem turnMass_nonneg {m : ℚ} (s : AbDeck) (ij : ℕ × ℕ) (hm : 0 ≤ m) :
    0 ≤ turnMass m s ij := by
  unfold turnMass
  rcases Nat.eq_zero_or_pos s.sum with h | h
  · simp [h]
  · have h1 : (0:ℚ) ≤ (s.sum : ℚ) - 1 := by
      have : (1:ℚ) ≤ (s.sum : ℚ) := by exact_mod_cast h
      linarith
    have h2 : (0:ℚ) ≤ (s.getD ij.1 0 : ℚ) := by positivity
    have h3 : (0:ℚ) ≤ (s.getD ij.2 0 : ℚ) := by positivity
    have h4 : (0:ℚ) ≤ (s.sum : ℚ) := by positivity
    exact div_nonneg (mul_nonneg (div_nonneg (mul_nonneg hm h2) h4) h3) h1

theorem nonneg_foldl_addMass {α : Type} (l : List α) (key : α → AbDeck) (mass : α → ℚ)
    (P0 : PDist) (h0 : ∀ e ∈ P0, 0 ≤ e.2) (hm : ∀ x ∈ l, 0 ≤ mass x) :
    ∀ e ∈ l.foldl (fun acc x => addMass acc (key x) (mass x)) P0, 0 ≤ e.2 := by
  induction l generalizing P0 with
  | nil => exact h0
  | cons x t ih =>
      simp only [List.foldl_cons]
      exact ih _ (nonneg_addMass P0 (key x) (mass x) h0 (hm x (by simp)))
        (fun y hy => hm y (List.mem_cons_of_mem _ hy))

theorem nonneg_play_turn (P : PDist) (hP : ∀ e ∈ P, 0 ≤ e.2) :
    ∀ e ∈ play_turn P, 0 ≤ e.2 := by
  have aux : ∀ (Q : PDist), (∀ e ∈ Q, 0 ≤ e.2) → ∀ (acc : PDist), (∀ e ∈ acc, 0 ≤ e.2) →
      ∀ e ∈ Q.foldl (fun a e => (combinations2 e.1.length).foldl
          (fun acc2 ij => addMass acc2 (remove e.1 [ij.1, ij.2]) (turnMass e.2 e.1 ij)) a) acc,
        0 ≤ e.2 := by
    intro Q
    induction Q with
    | nil => intro _ acc h; exact h
    | cons e t ih =>
        intro hQ acc hacc
        simp only [List.foldl_cons]
        exact ih (fun y hy => hQ y (List.mem_cons_of_mem _ hy)) _
          (nonneg_foldl_addMass _ _ _ acc hacc
            (fun ij _ => turnMass_nonneg e.1 ij (hQ e (by simp))))
  exact aux P hP [] (by simp)

/-- Pointwise form of the decrement performed by `remove s [i, j]` when
`i ≠ j`. -/
theorem count_pair_decrement {i j : ℕ} (h : i ≠ j) (k c : ℕ) :
    c - List.count k [i, j] = if k = i ∨ k = j then c - 1 else c := by
  rcases eq_or_ne k i with h1 | h1
  · subst h1
    have hj : ¬ j = k := fun hh => h hh.symm
    simp [List.count_cons, hj]
  · rcases eq_or_ne k j with h2 | h2
    · subst h2
      have hi : ¬ i = k := fun hh => h hh
      simp [List.count_cons, hi, h1]
    · have hi : ¬ i = k := fun hh => h1 hh.symm
      have hj : ¬ j = k := fun hh => h2 hh.symm
      simp [List.count_cons, hi, hj, h1, h2]

/-! ### Claim theorems: transition structure -/

/-- C2: the mass of `play_turn P` at any key `k` is exactly the sum, over the
entries `(state, mass)` of `P` and over the pairs of distinct positions
`i < j` of the state's count sequence (each visited exactly once; tied pairs
`i = j` are never enumerated), of `mass * state[i]/n * state[j]/(n-1)`
whenever `remove state [i, j] = k` — and no other mass is added. -/
theorem play_turn_is_pairwise_mass_transfer :
    (∀ (P : PDist) (k : AbDeck),
      lookupMass (play_turn P) k
        = (P.map (fun e => ((combinations2 e.1.length).map
            (fun ij => if k = remove e.1 [ij.1, ij.2]
              then e.2 * (e.1.getD ij.1 0 : ℚ) / (e.1.sum : ℚ) * (e.1.getD ij.2 0 : ℚ)
                / ((e.1.sum : ℚ) - 1)
              else 0)).sum)).sum)
    ∧ (∀ n : ℕ, (combinations2 n).Nodup)
    ∧ (∀ (n : ℕ) (p : ℕ × ℕ), p ∈ combinations2 n ↔ p.1 < p.2 ∧ p.2 < n) := by
  refine ⟨fun P k => ?_, nodup_combinations2, fun n p => mem_combinations2⟩
  simpa [turnMass] using lookupMass_play_turn P k

/-- C3: on two distinct in-range positions `i < j` of a canonical state,
`remove` decrements the counts at `i` and at `j` by one each, drops the
non-positive results, and re-sorts ascending. -/
theorem remove_decrements_two_positions (s : AbDeck) (i j : ℕ) (hcan : Canonical s)
    (hij : i < j) (hj : j < s.length) :
    remove s [i, j]
      = ((s.mapIdx (fun k c => if k = i ∨ k = j then c - 1 else c)).filter
          (fun c => decide (0 < c))).insertionSort (· ≤ ·) := by
  unfold remove
  have hfe : (fun (k : ℕ) (c : ℕ) => c - List.count k [i, j])
      = fun k c => if k = i ∨ k = j then c - 1 else c := by
    funext k c
    exact count_pair_decrement (Nat.ne_of_lt hij) k c
  rw [hfe]

/-- Witness for C3 at the canonical state `[1, 2, 3]`, positions `0 < 1`. -/
theorem remove_decrements_two_positions_witness :
    remove [1, 2, 3] [0, 1]
      = (([1, 2, 3].mapIdx (fun k c => if k = 0 ∨ k = 1 then c - 1 else c)).filter
          (fun c => decide (0 < c))).insertionSort (· ≤ ·) :=
  remove_decrements_two_positions [1, 2, 3] 0 1 ⟨by decide, by decide⟩ (by decide) (by decide)

/-- C10: `remove` is total on a repeated index: `remove s [i, i]` does not
fail but decrements the count at position `i` by 2 (dropping it when the
result is not positive); and `play_turn` never exercises this case, since
`combinations2` contains no pair `(i, i)`. -/
theorem remove_total_on_repeated_index :
    (∀ (s : AbDeck) (i : ℕ),
      remove s [i, i]
        = ((s.mapIdx (fun k c => if k = i then c - 2 else c)).filter
            (fun c => decide (0 < c))).insertionSort (· ≤ ·))
    ∧ (∀ (n i : ℕ), (i, i) ∉ combinations2 n) := by
  constructor
  · intro s i
    unfold remove
    have hfe : (fun (k : ℕ) (c : ℕ) => c - List.count k [i, i])
        = fun k c => if k = i then c - 2 else c := by
      funext k c
      rcases eq_or_ne k i with h1 | h1
      · subst h1; simp [List.count_cons]
      · have hi : ¬ i = k := fun hh => h1 hh.symm
        simp [List.count_cons, hi, h1]
    rw [hfe]
  · intro n i h
    have := (mem_combinations2.1 h).1
    omega

/-- C4: every state arising in a sweep computation is canonical: the initial
`make_abdeck` state (for positive arguments) and every key of every iterate
of `play_turn` from it is an ascending sequence of entries that are all at
least 1. -/
theorem reachable_states_canonical (r s : ℕ) (hr : 0 < r) (hs : 0 < s) (t : ℕ) :
    ∀ e ∈ play_turn^[t] [(make_abdeck r s, 1)], Canonical e.1 := by
  cases t with
  | zero =>
      intro e he
      simp only [Function.iterate_zero_apply, List.mem_singleton] at he
      rw [he]
      exact canonical_make_abdeck hs
  | succ t =>
      rw [Function.iterate_succ_apply']
      exact pred_keys_play_turn Canonical (fun s' i j => canonical_remove s' [i, j]) _

/-- Witness for C4: the initial state of the 52-card deck is canonical. -/
theorem reachable_states_canonical_witness : Canonical (make_abdeck 13 4) :=
  reachable_states_canonical 13 4 (by decide) (by decide) 0 (make_abdeck 13 4, 1)
    (by simp)

/-- C7 counterexample: `make_abdeck` raises no configuration error on a
non-positive rank count; `make_abdeck 0 1` returns the empty state
normally. -/
theorem make_abdeck_no_error_on_zero_ranks : make_abdeck 0 1 = [] := rfl

/-- C7 (amended): `make_abdeck` performs no input validation and never
fails; for any arguments — including non-positive ones — it returns
`rankCount` entries all equal to `suitCount` (so the empty state when
`rankCount = 0`), and for positive `suitCount` this is canonical. -/
theorem make_abdeck_unvalidated (r s : ℕ) :
    (make_abdeck r s).length = r ∧ (∀ c ∈ make_abdeck r s, c = s)
      ∧ make_abdeck 0 s = [] ∧ make_abdeck r 0 = List.replicate r 0
      ∧ (0 < s → Canonical (make_abdeck r s)) :=
  ⟨List.length_replicate r s, fun _ hc => List.eq_of_mem_replicate hc,
    rfl, rfl, fun hs => canonical_make_abdeck hs⟩

/-- Witness for the amended C7, exercising the canonicity implication at the
standard configuration. -/
theorem make_abdeck_unvalidated_witness :
    (make_abdeck 13 4).length = 13 ∧ Canonical (make_abdeck 13 4) :=
  ⟨(make_abdeck_unvalidated 13 4).1,
    (make_abdeck_unvalidated 13 4).2.2.2.2 (by decide)⟩

/-! ### Per-turn mass bound -/

theorem flatMap_congr {α β : Type} {l : List α} {f g : α → List β}
    (h : ∀ a ∈ l, f a = g a) : l.flatMap f = l.flatMap g := by
  induction l with
  | nil => rfl
  | cons x t ih =>
      rw [List.flatMap_cons, List.flatMap_cons, h x (by simp),
        ih (fun a ha => h a (List.mem_cons_of_mem _ ha))]

theorem combinations2_succ (n : ℕ) :
    combinations2 (n + 1)
      = ((List.range n).map (fun j => (0, j + 1)))
        ++ ((combinations2 n).map (fun pq => (pq.1 + 1, pq.2 + 1))) := by
  unfold combinations2
  conv_lhs => rw [List.range_succ_eq_map]
  rw [List.flatMap_cons, List.flatMap_map]
  congr 1
  · rw [List.drop_succ_cons, List.drop_zero, List.map_map]
    apply List.map_congr_left
    intro j _
    simp [Function.comp, Nat.succ_eq_add_one]
  · rw [List.map_flatMap]
    apply flatMap_congr
    intro i _
    rw [List.drop_succ_cons, ← List.map_drop, List.map_map, List.map_map]
    apply List.map_congr_left
    intro j _
    simp [Function.comp, Nat.succ_eq_add_one]

/-- Sum over positions of `getD` recovers the list. -/
theorem map_getD_range (t : List ℕ) :
    (List.range t.length).map (fun j => t.getD j 0) = t := by
  induction t with
  | nil => rfl
  | cons x t ih =>
      rw [List.length_cons, List.range_succ_eq_map, List.map_cons, List.map_map]
      congr 1

/-- `Σ_{i<j} s[i]*s[j]`, over the natural numbers. -/
def pairProdSum (s : List ℕ) : ℕ :=
  ((combinations2 s.length).map (fun ij => s.getD ij.1 0 * s.getD ij.2 0)).sum

theorem pairProdSum_cons (c : ℕ) (t : List ℕ) :
    pairProdSum (c :: t) = c * t.sum + pairProdSum t := by
  unfold pairProdSum
  rw [show (c :: t).length = t.length + 1 from rfl, combinations2_succ, List.map_append,
    List.sum_append]
  congr 1
  · rw [List.map_map]
    have h1 : ((List.range t.length).map
        ((fun ij => (c :: t).getD ij.1 0 * (c :: t).getD ij.2 0) ∘ (fun j => (0, j + 1))))
        = (List.range t.length).map (fun j => c * t.getD j 0) := by
      apply List.map_congr_left
      intro j _
      simp [Function.comp]
    rw [h1, List.sum_map_mul_left, map_getD_range]
  · rw [List.map_map]
    apply congrArg
    apply List.map_congr_left
    intro pq _
    simp [Function.comp]

theorem two_mul_pairProdSum (s : List ℕ) :
    2 * pairProdSum s + (s.map (fun c => c * c)).sum = s.sum * s.sum := by
  induction s with
  | nil => simp [pairProdSum, combinations2]
  | cons c t ih =>
      rw [pairProdSum_cons, List.map_cons, List.sum_cons, List.sum_cons]
      nlinarith [ih]

theorem sum_le_sum_sq (s : List ℕ) : s.sum ≤ (s.map (fun c => c * c)).sum := by
  induction s with
  | nil => simp
  | cons c t ih =>
      rw [List.map_cons, List.sum_cons, List.sum_cons]
      have hc : c ≤ c * c := by nlinarith
      omega

theorem pairProdSum_le (s : List ℕ) : 2 * pairProdSum s + s.sum ≤ s.sum * s.sum := by
  have h1 := two_mul_pairProdSum s
  have h2 := sum_le_sum_sq s
  omega

/-- The total weight `Σ_{i<j} s[i]/n * s[j]/(n-1)` a state passes on in one
turn. -/
def W (s : List ℕ) : ℚ :=
  ((combinations2 s.length).map
    (fun ij => (s.getD ij.1 0 : ℚ) / (s.sum : ℚ) * (s.getD ij.2 0 : ℚ)
      / ((s.sum : ℚ) - 1))).sum

theorem turnMass_eq (m : ℚ) (s : AbDeck) (ij : ℕ × ℕ) :
    turnMass m s ij
      = m * ((s.getD ij.1 0 : ℚ) / (s.sum : ℚ) * (s.getD ij.2 0 : ℚ)
          / ((s.sum : ℚ) - 1)) := by
  unfold turnMass
  ring

theorem sum_turnMass (m : ℚ) (s : AbDeck) :
    ((combinations2 s.length).map (fun ij => turnMass m s ij)).sum = m * W s := by
  unfold W
  rw [← List.sum_map_mul_left]
  apply congrArg
  apply List.map_congr_left
  intro ij _
  exact turnMass_eq m s ij

theorem W_nonneg (s : AbDeck) : 0 ≤ W s := by
  apply List.sum_nonneg
  intro x hx
  rw [List.mem_map] at hx
  obtain ⟨ij, _, rfl⟩ := hx
  have h := @turnMass_nonneg 1 s ij (by norm_num)
  rw [turnMass_eq] at h
  simpa using h

theorem W_le_half (s : AbDeck) : W s ≤ 1 / 2 := by
  rcases Nat.lt_or_ge s.sum 2 with hn | hn
  · have hz : ∀ ij ∈ combinations2 s.length,
        (s.getD ij.1 0 : ℚ) / (s.sum : ℚ) * (s.getD ij.2 0 : ℚ) / ((s.sum : ℚ) - 1)
          = 0 := by
      intro ij _
      interval_cases h : s.sum <;> simp
    unfold W
    rw [List.map_congr_left hz]
    simp
  · have hn0 : (0:ℚ) < (s.sum : ℚ) := by
      have : (2:ℚ) ≤ (s.sum : ℚ) := by exact_mod_cast hn
      linarith
    have hn1 : (0:ℚ) < (s.sum : ℚ) - 1 := by
      have : (2:ℚ) ≤ (s.sum : ℚ) := by exact_mod_cast hn
      linarith
    have hW : W s = (pairProdSum s : ℚ) / ((s.sum : ℚ) * ((s.sum : ℚ) - 1)) := by
      unfold W pairProdSum
      have h1 : ∀ ij ∈ combinations2 s.length,
          (s.getD ij.1 0 : ℚ) / (s.sum : ℚ) * (s.getD ij.2 0 : ℚ) / ((s.sum : ℚ) - 1)
            = ((s.getD ij.1 0 * s.getD ij.2 0 : ℕ) : ℚ)
              * (((s.sum : ℚ) * ((s.sum : ℚ) - 1))⁻¹) := by
        intro ij _
        push_cast
        field_simp
      rw [List.map_congr_left h1, List.sum_map_mul_right, div_eq_mul_inv]
      congr 1
      rw [Nat.cast_list_sum, List.map_map]
      rfl
    rw [hW, div_le_div_iff (by positivity) (by norm_num)]
    have hb := pairProdSum_le s
    have hcast : (2:ℚ) * (pairProdSum s : ℚ) + (s.sum : ℚ) ≤ (s.sum : ℚ) * (s.sum : ℚ) := by
      exact_mod_cast hb
    nlinarith [hcast, hn0]

theorem total_play_turn (P : PDist) :
    total (play_turn P) = (P.map (fun e => e.2 * W e.1)).sum := by
  rw [total_eq_totalW, totalW_play_turn]
  apply congrArg
  apply List.map_congr_left
  intro e _
  rw [← sum_turnMass e.2 e.1]
  apply congrArg
  apply List.map_congr_left
  intro ij _
  rw [mul_one]

theorem total_nonneg (P : PDist) (hP : ∀ e ∈ P, 0 ≤ e.2) : 0 ≤ total P := by
  apply List.sum_nonneg
  intro x hx
  rw [List.mem_map] at hx
  obtain ⟨e, he, rfl⟩ := hx
  exact hP e he

theorem total_play_turn_le_half (P : PDist) (hP : ∀ e ∈ P, 0 ≤ e.2) :
    total (play_turn P) ≤ (1 / 2) * total P := by
  rw [total_play_turn]
  have h1 : (P.map (fun e => e.2 * W e.1)).sum ≤ (P.map (fun e => e.2 * (1 / 2))).sum := by
    apply List.sum_le_sum
    intro e he
    exact mul_le_mul_of_nonneg_left (W_le_half e.1) (hP e he)
  have h2 : (P.map (fun e => e.2 * (1 / 2))).sum = total P * (1 / 2) := by
    rw [List.sum_map_mul_right]
    rfl
  rw [h2] at h1
  linarith [h1]

theorem total_play_turn_le (P : PDist) (hP : ∀ e ∈ P, 0 ≤ e.2) :
    total (play_turn P) ≤ total P := by
  have h1 := total_play_turn_le_half P hP
  have h2 := total_nonneg P hP
  linarith

theorem nonneg_iterate (s0 : AbDeck) (t : ℕ) :
    ∀ e ∈ play_turn^[t] [(s0, 1)], 0 ≤ e.2 := by
  induction t with
  | zero =>
      intro e he
      simp only [Function.iterate_zero_apply, List.mem_singleton] at he
      rw [he]
      norm_num
  | succ t ih =>
      rw [Function.iterate_succ_apply']
      exact nonneg_play_turn _ ih

theorem total_iterate_le_one (s0 : AbDeck) (t : ℕ) :
    total (play_turn^[t] [(s0, 1)]) ≤ 1 := by
  induction t with
  | zero => simp [total]
  | succ t ih =>
      rw [Function.iterate_succ_apply']
      exact le_trans (total_play_turn_le _ (nonneg_iterate s0 t)) ih

/-! ### Claim theorems: mass monotonicity and bounds -/

/-- C5: one `play_turn` never increases total mass (for nonnegative-mass
distributions), and consequently the successive totals inside `p_sweep` are
non-increasing in the turn index. -/
theorem total_mass_non_increasing :
    (∀ P : PDist, (∀ e ∈ P, 0 ≤ e.2) → total (play_turn P) ≤ total P)
    ∧ (∀ (s0 : AbDeck) (t : ℕ),
        total (play_turn^[t + 1] [(s0, 1)]) ≤ total (play_turn^[t] [(s0, 1)])) := by
  refine ⟨total_play_turn_le, fun s0 t => ?_⟩
  rw [Function.iterate_succ_apply']
  exact total_play_turn_le _ (nonneg_iterate s0 t)

/-- Witness for C5 at the two-card deck distribution. -/
theorem total_mass_non_increasing_witness :
    total (play_turn [(([1, 1] : AbDeck), (1 : ℚ))]) ≤ total [(([1, 1] : AbDeck), (1 : ℚ))] :=
  total_mass_non_increasing.1 [([1, 1], 1)]
    (by
      intro e he
      rw [List.mem_singleton] at he
      rw [he]
      norm_num)

/-- C6: for any valid configuration (positive rank and suit counts, even
total), the sweep probability lies in `[0, 1]`. -/
theorem p_sweep_bounds (r s : ℕ) (hr : 1 ≤ r) (hs : 1 ≤ s)
    (he : Even ((make_abdeck r s).sum)) :
    0 ≤ p_sweep (make_abdeck r s) ∧ p_sweep (make_abdeck r s) ≤ 1 := by
  unfold p_sweep
  exact ⟨total_nonneg _ (nonneg_iterate _ _), total_iterate_le_one _ _⟩

/-- Witness for C6 at the configuration `rankCount = 2, suitCount = 1`. -/
theorem p_sweep_bounds_witness :
    0 ≤ p_sweep (make_abdeck 2 1) ∧ p_sweep (make_abdeck 2 1) ≤ 1 :=
  p_sweep_bounds 2 1 (by decide) (by decide) (by decide)

/-- C9 counterexample: a distribution whose only key is the degenerate
single-rank deck `[2]` still loses mass strictly — `play_turn` maps it to
the empty distribution, so the spec's "except in degenerate
single-rank-remaining decks" exception is wrong. -/
theorem strict_decrease_holds_on_single_rank_deck :
    play_turn [(([2] : AbDeck), (1 : ℚ))] = []
      ∧ total (play_turn [(([2] : AbDeck), (1 : ℚ))]) < total [(([2] : AbDeck), (1 : ℚ))] := by
  constructor
  · rfl
  · rw [show play_turn [(([2] : AbDeck), (1 : ℚ))] = [] from rfl]
    simp [total]

/-- C9 (amended): strict mass decrease needs no condition on the keys: for
every distribution with nonnegative masses and positive total mass,
`play_turn` strictly decreases the total — including distributions all of
whose keys are degenerate single-rank decks. -/
theorem total_play_turn_strict_decrease (P : PDist) (hP : ∀ e ∈ P, 0 ≤ e.2)
    (hpos : 0 < total P) : total (play_turn P) < total P := by
  have h1 := total_play_turn_le_half P hP
  linarith

/-- Witness for the amended C9. -/
theorem total_play_turn_strict_decrease_witness :
    total (play_turn [(([1, 2] : AbDeck), (1 : ℚ))]) < total [(([1, 2] : AbDeck), (1 : ℚ))] :=
  total_play_turn_strict_decrease [([1, 2], 1)]
    (by
      intro e he
      rw [List.mem_singleton] at he
      rw [he]
      norm_num)
    (by simp [total])

/-- C8 counterexample: `p_sweep` raises no error on an odd total token
count; on the three-card deck `[1, 1, 1]` it simply floor-divides, plays
one turn, and returns `1/2`. -/
theorem p_sweep_no_error_on_odd_total : p_sweep [1, 1, 1] = 1 / 2 := by
  have h1 : combinations2 3 = [(0, 1), (0, 2), (1, 2)] := by decide
  have h2 : remove [1, 1, 1] [0, 1] = [1] := by decide
  have h3 : remove [1, 1, 1] [0, 2] = [1] := by decide
  have h4 : remove [1, 1, 1] [1, 2] = [1] := by decide
  simp [p_sweep, play_turn, h1, h2, h3, h4, turnMass, total, addMass]
  norm_num

/-- C8 (amended): on an odd total `p_sweep` does not fail; it executes
`⌊total/2⌋ = (total - 1)/2` turns, leaving one token undrawn. -/
theorem p_sweep_floor_turns_on_odd (s0 : AbDeck) (h : Odd s0.sum) :
    p_sweep s0 = total (play_turn^[(s0.sum - 1) / 2] [(s0, 1)]) := by
  unfold p_sweep
  obtain ⟨k, hk⟩ := h
  rw [hk]
  congr 2
  omega

/-- Witness for the amended C8 at the odd deck `[1, 1, 1]`. -/
theorem p_sweep_floor_turns_on_odd_witness :
    p_sweep [1, 1, 1] = total (play_turn^[(([1, 1, 1] : AbDeck).sum - 1) / 2] [([1, 1, 1], 1)]) :=
  p_sweep_floor_turns_on_odd [1, 1, 1] (by decide)

/-! ### Oracle side: counting sweeping permutations -/

/-- Total-function version of `sweep`, agreeing with `sweepO` on decks of
even length (the only ones `sweep` is ever called on without raising). -/
def sweepB : List ℕ → Bool
  | [] => true
  | [_] => true
  | a :: b :: rest => decide (b < a) && sweepB rest

/-- The number of orderings of `l` that player A sweeps. -/
def SC (l : List ℕ) : ℕ := (permutations l).countP sweepB

theorem permutations_cons (x : ℕ) (t : List ℕ) :
    permutations (x :: t) = (List.range (x :: t).length).flatMap
      (fun i => (permutations ((x :: t).eraseIdx i)).map
        (fun p => (x :: t).getD i 0 :: p)) := by
  show permsAux (t.length + 1) (x :: t) = _
  show (List.range (x :: t).length).flatMap _ = _
  apply flatMap_congr
  intro i hi
  have hlen : ((x :: t).eraseIdx i).length = t.length := by
    rw [List.length_eraseIdx, if_pos (List.mem_range.1 hi)]
    simp
  congr 1
  show permsAux t.length ((x :: t).eraseIdx i) = permutations ((x :: t).eraseIdx i)
  unfold permutations
  rw [hlen]

theorem permutations_of_ne_nil {l : List ℕ} (h : l ≠ []) :
    permutations l = (List.range l.length).flatMap
      (fun i => (permutations (l.eraseIdx i)).map (fun p => l.getD i 0 :: p)) := by
  cases l with
  | nil => exact absurd rfl h
  | cons x t => exact permutations_cons x t

theorem length_permutations : ∀ (n : ℕ) (l : List ℕ), l.length = n →
    (permutations l).length = Nat.factorial n := by
  intro n
  induction n with
  | zero =>
      intro l hl
      rw [List.length_eq_zero.1 hl]
      rfl
  | succ n ih =>
      intro l hl
      cases l with
      | nil => simp at hl
      | cons x t =>
          rw [permutations_cons, List.length_flatMap]
          have hcongr : ∀ i ∈ List.range (x :: t).length,
              (List.length ∘ fun i => (permutations ((x :: t).eraseIdx i)).map
                (fun p => (x :: t).getD i 0 :: p)) i = Nat.factorial n := by
            intro i hi
            simp only [Function.comp, List.length_map]
            apply ih
            rw [List.length_eraseIdx, if_pos (List.mem_range.1 hi)]
            omega
          rw [List.map_congr_left hcongr]
          simp only [List.map_const', List.sum_replicate, List.length_range, smul_eq_mul]
          rw [hl]
          rw [Nat.factorial_succ]

theorem length_mem_permutations : ∀ (n : ℕ) (l : List ℕ), l.length = n →
    ∀ d ∈ permutations l, d.length = n := by
  intro n
  induction n with
  | zero =>
      intro l hl d hd
      rw [List.length_eq_zero.1 hl] at hd
      have : d = [] := by simpa [permutations, permsAux] using hd
      simp [this]
  | succ n ih =>
      intro l hl d hd
      have hne : l ≠ [] := by
        intro h
        rw [h] at hl
        simp at hl
      rw [permutations_of_ne_nil hne, List.mem_flatMap] at hd
      obtain ⟨i, hi, hd⟩ := hd
      rw [List.mem_map] at hd
      obtain ⟨p, hp, rfl⟩ := hd
      have hlp : p.length = n := by
        apply ih (l.eraseIdx i) _ p hp
        rw [List.length_eraseIdx, if_pos (List.mem_range.1 hi)]
        omega
      simp [hlp]

theorem sweepO_eq_sweepB : ∀ (n : ℕ) (l : List ℕ), l.length = n → Even n →
    sweepO l = some (sweepB l) := by
  intro n
  induction n using Nat.strong_induction_on with
  | _ n ih =>
      intro l hl he
      match l with
      | [] => rfl
      | [x] =>
          rw [← hl] at he
          simp at he
      | a :: b :: t =>
          have hn : t.length + 2 = n := by simpa using hl
          have ht : Even t.length := by
            obtain ⟨k, hk⟩ := he
            exact ⟨k - 1, by omega⟩
          have hrec := ih t.length (by omega) t rfl ht
          by_cases hba : b < a
          · simp [sweepO, sweepB, hba, hrec]
          · simp [sweepO, sweepB, hba]

theorem mapM_sweepO (ds : List (List ℕ)) (h : ∀ d ∈ ds, sweepO d = some (sweepB d)) :
    ds.mapM sweepO = some (ds.map sweepB) := by
  induction ds with
  | nil => rfl
  | cons d t ih =>
      rw [List.mapM_cons, h d (by simp), ih (fun d' hd' => h d' (List.mem_cons_of_mem _ hd'))]
      rfl

theorem sum_indicator_eq_countP (bs : List Bool) :
    ((bs.map (fun b => if b then (1 : ℚ) else 0)).sum) = (bs.countP id : ℚ) := by
  induction bs with
  | nil => simp
  | cons b t ih =>
      rw [List.map_cons, List.sum_cons, ih, List.countP_cons]
      cases b <;> simp [ih] <;> push_cast <;> ring

/-- On an even-length deck, `p_sweeps` over all orderings is the sweep count
over the factorial. -/
theorem p_sweeps_permutations (l : List ℕ) (he : Even l.length) :
    p_sweeps (permutations l) = some ((SC l : ℚ) / ((Nat.factorial l.length : ℕ) : ℚ)) := by
  have hlen : (permutations l).length = Nat.factorial l.length :=
    length_permutations l.length l rfl
  have hne : ((permutations l).map sweepB).isEmpty = false := by
    rw [List.isEmpty_eq_false_iff_exists_mem]
    have hpos : 0 < (permutations l).length := by
      rw [hlen]
      exact Nat.factorial_pos _
    obtain ⟨d, hd⟩ := List.exists_mem_of_length_pos hpos
    exact ⟨sweepB d, List.mem_map_of_mem _ hd⟩
  have hred : p_sweeps (permutations l)
      = if ((permutations l).map sweepB).isEmpty = true then none
        else some ((((permutations l).map sweepB).map
            (fun b => if b then (1 : ℚ) else 0)).sum
          / ((((permutations l).map sweepB)).length : ℚ)) := by
    unfold p_sweeps
    rw [mapM_sweepO _ (fun d hd =>
      sweepO_eq_sweepB l.length d (length_mem_permutations l.length l rfl d hd) he)]
  rw [hred, hne]
  simp only [if_false, Bool.false_eq_true]
  rw [sum_indicator_eq_countP, List.countP_map, List.length_map, hlen]
  unfold SC
  norm_num

/-! ### Canonical sorting and `remove` as a multiset operation -/

/-- The canonical sorted list of a multiset. -/
def sortLst (m : Multiset ℕ) : List ℕ := Multiset.sort (· ≤ ·) m

theorem coe_sortLst (m : Multiset ℕ) : (↑(sortLst m) : Multiset ℕ) = m :=
  Multiset.sort_eq _ m

theorem insertionSort_eq_sortLst (l : List ℕ) :
    l.insertionSort (· ≤ ·) = sortLst ↑l := by
  apply List.eq_of_perm_of_sorted ?_ (List.sorted_insertionSort _ _)
    (Multiset.sort_sorted _ _)
  have h1 := List.perm_insertionSort (· ≤ ·) l
  have h2 : (sortLst ↑l).Perm l := Multiset.coe_eq_coe.1 (coe_sortLst ↑l)
  exact h1.trans h2.symm

theorem getD_mem {l : List ℕ} {i : ℕ} (h : i < l.length) : l.getD i 0 ∈ l := by
  rw [List.getD_eq_getElem l 0 h]
  exact List.getElem_mem h

theorem cons_erase_of_mem (x : ℕ) {y : ℕ} {m : Multiset ℕ} (h : y ∈ m) :
    (x ::ₘ m).erase y = x ::ₘ m.erase y := by
  rcases eq_or_ne x y with rfl | hne
  · rw [Multiset.erase_cons_head, Multiset.cons_erase h]
  · exact Multiset.erase_cons_tail m hne

theorem coe_eraseIdx : ∀ (l : List ℕ) (i : ℕ), i < l.length →
    (↑(l.eraseIdx i) : Multiset ℕ) = (↑l : Multiset ℕ).erase (l.getD i 0) := by
  intro l
  induction l with
  | nil => intro i h; simp at h
  | cons x t ih =>
      intro i h
      cases i with
      | zero =>
          rw [List.eraseIdx_cons_zero, List.getD_cons_zero, ← Multiset.cons_coe,
            Multiset.erase_cons_head]
      | succ i =>
          have hi : i < t.length := by simpa using h
          rw [List.eraseIdx_cons_succ, List.getD_cons_succ, ← Multiset.cons_coe,
            ← Multiset.cons_coe, cons_erase_of_mem x (Multiset.mem_coe.2 (getD_mem hi)),
            ih i hi]

theorem mapIdx_congr {f g : ℕ → ℕ → ℕ} (h : ∀ i c, f i c = g i c) (l : List ℕ) :
    l.mapIdx f = l.mapIdx g := by
  have hfg : f = g := funext fun i => funext fun c => h i c
  rw [hfg]

theorem mapIdx_id_of (l : List ℕ) : l.mapIdx (fun _ c => c) = l := by
  induction l with
  | nil => rfl
  | cons x t ih =>
      rw [List.mapIdx_cons]
      exact congrArg (List.cons x) ih

theorem coe_mapIdx_dec1 : ∀ (t : List ℕ) (j : ℕ), j < t.length →
    (↑(t.mapIdx (fun k c => c - List.count k [j])) : Multiset ℕ)
      = (t.getD j 0 - 1) ::ₘ ↑(t.eraseIdx j) := by
  intro t
  induction t with
  | nil => intro j h; simp at h
  | cons x t ih =>
      intro j h
      cases j with
      | zero =>
          rw [List.eraseIdx_cons_zero, List.getD_cons_zero, Multiset.cons_coe]
          have hlist : (x :: t).mapIdx (fun k c => c - List.count k [0]) = (x - 1) :: t := by
            rw [List.mapIdx_cons]
            exact congrArg (List.cons (x - 1)) (mapIdx_id_of t)
          rw [hlist]
      | succ j =>
          have hj : j < t.length := by simpa using h
          rw [List.mapIdx_cons, List.eraseIdx_cons_succ, List.getD_cons_succ,
            ← Multiset.cons_coe, ← Multiset.cons_coe]
          have h1 : t.mapIdx (fun i => (fun k c => c - List.count k [j + 1]) (i + 1))
              = t.mapIdx (fun k c => c - List.count k [j]) := by
            apply mapIdx_congr
            intro i c
            simp [List.count_cons]
          have h2 : x - List.count 0 [j + 1] = x := by simp
          rw [h1, h2, ih j hj, Multiset.cons_swap]

theorem coe_mapIdx_dec2 : ∀ (L : List ℕ) (p q : ℕ), p < q → q < L.length →
    (↑(L.mapIdx (fun k c => c - List.count k [p, q])) : Multiset ℕ)
      = (L.getD p 0 - 1) ::ₘ (L.getD q 0 - 1) ::ₘ ↑((L.eraseIdx q).eraseIdx p) := by
  intro L
  induction L with
  | nil => intro p q h1 h2; simp at h2
  | cons x t ih =>
      intro p q hpq hq
      cases p with
      | zero =>
          cases q with
          | zero => exact absurd hpq (lt_irrefl 0)
          | succ j =>
              have hj : j < t.length := by simpa using hq
              rw [List.mapIdx_cons, List.eraseIdx_cons_succ, List.eraseIdx_cons_zero,
                List.getD_cons_zero, List.getD_cons_succ, ← Multiset.cons_coe]
              have h1 : t.mapIdx (fun i => (fun k c => c - List.count k [0, j + 1]) (i + 1))
                  = t.mapIdx (fun k c => c - List.count k [j]) := by
                apply mapIdx_congr
                intro i c
                simp [List.count_cons]
              have h2 : x - List.count 0 [0, j + 1] = x - 1 := by simp [List.count_cons]
              rw [h1, h2, coe_mapIdx_dec1 t j hj]
      | succ p =>
          cases q with
          | zero => exact absurd hpq (by omega)
          | succ q =>
              have hpq2 : p < q := by omega
              have hq2 : q < t.length := by simpa using hq
              rw [List.mapIdx_cons, List.eraseIdx_cons_succ, List.eraseIdx_cons_succ,
                List.getD_cons_succ, List.getD_cons_succ, ← Multiset.cons_coe,
                ← Multiset.cons_coe]
              have h1 : t.mapIdx (fun i => (fun k c => c - List.count k [p + 1, q + 1]) (i + 1))
                  = t.mapIdx (fun k c => c - List.count k [p, q]) := by
                apply mapIdx_congr
                intro i c
                simp [List.count_cons]
              have h2 : x - List.count 0 [p + 1, q + 1] = x := by simp [List.count_cons]
              rw [h1, h2, ih p q hpq2 hq2]
              rw [show ((t.getD p 0 - 1) ::ₘ (t.getD q 0 - 1)
                  ::ₘ ↑((t.eraseIdx q).eraseIdx p) : Multiset ℕ)
                  = (t.getD p 0 - 1) ::ₘ ((t.getD q 0 - 1)
                    ::ₘ ↑((t.eraseIdx q).eraseIdx p)) from rfl]
              rw [Multiset.cons_swap x, Multiset.cons_swap x]

/-- `remove L [p, q]` canonicalizes the multiset obtained by replacing the
two selected counts by their decrements and dropping non-positive ones. -/
theorem remove_eq_canon (L : List ℕ) (p q : ℕ) (hpq : p < q) (hq : q < L.length) :
    remove L [p, q] = sortLst (Multiset.filter (fun c => 0 < c)
      ((L.getD p 0 - 1) ::ₘ (L.getD q 0 - 1) ::ₘ ↑((L.eraseIdx q).eraseIdx p))) := by
  unfold remove
  rw [insertionSort_eq_sortLst]
  congr 1
  rw [← coe_mapIdx_dec2 L p q hpq hq]
  exact (Multiset.filter_coe _ _).symm

/-! ### Selection sums over multisets -/

/-- Sum over one selected element (with multiplicity): each occurrence `a`
of `m` contributes `Ψ a (m.erase a)`. -/
def SSM (Ψ : ℕ → Multiset ℕ → ℚ) (m : Multiset ℕ) : ℚ :=
  (m.map (fun a => Ψ a (m.erase a))).sum

/-- Sum over an ordered selection of two elements at distinct positions. -/
def DSM (Φ : ℕ → ℕ → Multiset ℕ → ℚ) (m : Multiset ℕ) : ℚ :=
  SSM (fun a r => SSM (fun b r2 => Φ a b r2) r) m

/-- Positional form of `SSM` on a list. -/
def SSL (Ψ : ℕ → Multiset ℕ → ℚ) (l : List ℕ) : ℚ :=
  ((List.range l.length).map
    (fun i => Ψ (l.getD i 0) (↑(l.eraseIdx i) : Multiset ℕ))).sum

/-- Sum over the unordered position pairs `p < q` of a list. -/
def S2 (Φ : ℕ → ℕ → Multiset ℕ → ℚ) (L : List ℕ) : ℚ :=
  ((combinations2 L.length).map (fun pq => Φ (L.getD pq.1 0) (L.getD pq.2 0)
    (↑((L.eraseIdx pq.2).eraseIdx pq.1) : Multiset ℕ))).sum

theorem SSM_congr {Ψ₁ Ψ₂ : ℕ → Multiset ℕ → ℚ} (h : ∀ a r, Ψ₁ a r = Ψ₂ a r)
    (m : Multiset ℕ) : SSM Ψ₁ m = SSM Ψ₂ m := by
  unfold SSM
  apply congrArg
  apply Multiset.map_congr rfl
  intro a _
  rw [h]

theorem SSM_add (Ψ₁ Ψ₂ : ℕ → Multiset ℕ → ℚ) (m : Multiset ℕ) :
    SSM (fun a r => Ψ₁ a r + Ψ₂ a r) m = SSM Ψ₁ m + SSM Ψ₂ m :=
  Multiset.sum_map_add

theorem SSM_cons (Ψ : ℕ → Multiset ℕ → ℚ) (x : ℕ) (m : Multiset ℕ) :
    SSM Ψ (x ::ₘ m) = Ψ x m + SSM (fun b r => Ψ b (x ::ₘ r)) m := by
  unfold SSM
  rw [Multiset.map_cons, Multiset.sum_cons]
  congr 1
  · rw [Multiset.erase_cons_head]
  · apply congrArg
    apply Multiset.map_congr rfl
    intro b hb
    rw [cons_erase_of_mem x hb]

theorem SSL_eq_SSM : ∀ (l : List ℕ) (Ψ : ℕ → Multiset ℕ → ℚ), SSL Ψ l = SSM Ψ ↑l := by
  intro l
  induction l with
  | nil => intro Ψ; simp [SSL, SSM]
  | cons x t ih =>
      intro Ψ
      rw [show (↑(x :: t) : Multiset ℕ) = x ::ₘ ↑t from (Multiset.cons_coe x t).symm,
        SSM_cons]
      unfold SSL
      rw [List.length_cons, List.range_succ_eq_map, List.map_cons, List.map_map,
        List.sum_cons]
      congr 1
      rw [← ih (fun a r => Ψ a (x ::ₘ r))]
      unfold SSL
      apply congrArg
      apply List.map_congr_left
      intro i _
      simp only [Function.comp, Nat.succ_eq_add_one, List.getD_cons_succ,
        List.eraseIdx_cons_succ, ← Multiset.cons_coe]

theorem S2_cons (Φ : ℕ → ℕ → Multiset ℕ → ℚ) (x : ℕ) (t : List ℕ) :
    S2 Φ (x :: t) = SSL (fun b r => Φ x b r) t
      + S2 (fun a b r => Φ a b (x ::ₘ r)) t := by
  unfold S2
  rw [show (x :: t).length = t.length + 1 from rfl, combinations2_succ,
    List.map_append, List.sum_append]
  congr 1
  · rw [List.map_map]
    unfold SSL
    apply congrArg
    apply List.map_congr_left
    intro j _
    simp only [Function.comp]
    rw [List.getD_cons_zero, List.getD_cons_succ, List.eraseIdx_cons_succ,
      List.eraseIdx_cons_zero]
  · rw [List.map_map]
    apply congrArg
    apply List.map_congr_left
    intro pq _
    simp only [Function.comp]
    rw [List.getD_cons_succ, List.getD_cons_succ, List.eraseIdx_cons_succ,
      List.eraseIdx_cons_succ, ← Multiset.cons_coe]

theorem DSM_cons (Φ : ℕ → ℕ → Multiset ℕ → ℚ) (x : ℕ) (m : Multiset ℕ) :
    DSM Φ (x ::ₘ m) = SSM (fun b r => Φ x b r) m + SSM (fun a r => Φ a x r) m
      + DSM (fun a b r => Φ a b (x ::ₘ r)) m := by
  unfold DSM
  rw [SSM_cons]
  have hc : SSM (fun a r => SSM (fun b r2 => Φ a b r2) (x ::ₘ r)) m
      = SSM (fun a r => Φ a x r + SSM (fun b r2 => Φ a b (x ::ₘ r2)) r) m :=
    SSM_congr (fun a r => SSM_cons (fun b r2 => Φ a b r2) x r) m
  rw [hc]
  rw [SSM_add]
  ring

/-- For a symmetric summand, the sum over unordered position pairs is half
the sum over ordered selections. -/
theorem two_S2_eq_DSM : ∀ (l : List ℕ) (Φ : ℕ → ℕ → Multiset ℕ → ℚ),
    (∀ a b r, Φ a b r = Φ b a r) → 2 * S2 Φ l = DSM Φ ↑l := by
  intro l
  induction l with
  | nil =>
      intro Φ _
      simp [S2, DSM, SSM, combinations2]
  | cons x t ih =>
      intro Φ hsym
      have hc : SSM (fun a r => Φ a x r) (↑t : Multiset ℕ)
          = SSM (fun b r => Φ x b r) (↑t : Multiset ℕ) :=
        SSM_congr (fun a r => hsym a x r) ↑t
      rw [S2_cons,
        show (↑(x :: t) : Multiset ℕ) = x ::ₘ ↑t from (Multiset.cons_coe x t).symm,
        DSM_cons, mul_add, ih _ (fun a b r => hsym a b (x ::ₘ r)), SSL_eq_SSM, hc]
      ring

/-! ### The count multiset of a concrete deck -/

/-- The multiset of per-rank counts of a concrete deck. -/
def cntMs (m : Multiset ℕ) : Multiset ℕ := m.dedup.map (fun a => m.count a)

/-- The canonical abstract deck of a concrete deck multiset. -/
def absMs (m : Multiset ℕ) : List ℕ := sortLst (cntMs m)

theorem map_erase_of_mem (f : ℕ → ℕ) (μ : Multiset ℕ) :
    ∀ a ∈ μ, (μ.erase a).map f = (μ.map f).erase (f a) := by
  induction μ using Multiset.induction_on with
  | empty => intro a ha; simp at ha
  | cons x s ih =>
      intro a ha
      rcases eq_or_ne a x with rfl | hne
      · rw [Multiset.erase_cons_head, Multiset.map_cons, Multiset.erase_cons_head]
      · have has : a ∈ s := by
          rcases Multiset.mem_cons.1 ha with h | h
          · exact absurd h hne
          · exact h
        rw [cons_erase_of_mem x has, Multiset.map_cons, Multiset.map_cons,
          cons_erase_of_mem (f x) (Multiset.mem_map_of_mem f has), ih a has]

theorem one_le_of_mem_cntMs {m : Multiset ℕ} : ∀ c ∈ cntMs m, 1 ≤ c := by
  intro c hc
  rw [cntMs, Multiset.mem_map] at hc
  obtain ⟨x, hx, rfl⟩ := hc
  exact Multiset.count_pos.2 (Multiset.mem_dedup.1 hx)

theorem dedup_erase_of_count_eq_one {m : Multiset ℕ} {a : ℕ} (h : m.count a = 1) :
    (m.erase a).dedup = m.dedup.erase a := by
  rw [Multiset.Nodup.ext (Multiset.nodup_dedup _) ((Multiset.nodup_dedup m).erase a)]
  intro x
  rw [Multiset.mem_dedup, (Multiset.nodup_dedup m).mem_erase_iff, Multiset.mem_dedup]
  rcases eq_or_ne x a with rfl | hne
  · simp only [ne_eq, not_true_eq_false, false_and, iff_false]
    intro hx
    have := Multiset.count_erase_self x m
    rw [h] at this
    have h0 := Multiset.count_pos.2 hx
    omega
  · rw [Multiset.mem_erase_of_ne hne]
    simp [hne]

theorem dedup_erase_of_two_le {m : Multiset ℕ} {a : ℕ} (h : 2 ≤ m.count a) :
    (m.erase a).dedup = m.dedup := by
  rw [Multiset.Nodup.ext (Multiset.nodup_dedup _) (Multiset.nodup_dedup m)]
  intro x
  rw [Multiset.mem_dedup, Multiset.mem_dedup]
  rcases eq_or_ne x a with rfl | hne
  · constructor
    · intro hx
      exact Multiset.mem_of_mem_erase hx
    · intro _
      rw [← Multiset.count_pos, Multiset.count_erase_self]
      omega
  · rw [Multiset.mem_erase_of_ne hne]

/-- Erasing one token of value `a` from the deck removes one slot holding
`count a` from the count multiset and re-inserts the decremented count
when it stays positive. -/
theorem cntMs_erase (m : Multiset ℕ) (a : ℕ) (ha : a ∈ m) :
    cntMs (m.erase a)
      = (cntMs m).erase (m.count a)
        + Multiset.filter (fun c => 0 < c) {m.count a - 1} := by
  have hc1 : 1 ≤ m.count a := Multiset.count_pos.2 ha
  have hadm : a ∈ m.dedup := Multiset.mem_dedup.2 ha
  rcases eq_or_lt_of_le hc1 with h1 | h2
  · -- count a = 1: the slot disappears
    have h1 : m.count a = 1 := h1.symm
    have hfilter : Multiset.filter (fun c => 0 < c) ({m.count a - 1} : Multiset ℕ) = 0 := by
      rw [Multiset.filter_singleton, if_neg (show ¬ 0 < m.count a - 1 by omega)]
      rfl
    rw [hfilter, add_zero]
    unfold cntMs
    rw [dedup_erase_of_count_eq_one h1]
    have hcongr : (m.dedup.erase a).map (fun x => (m.erase a).count x)
        = (m.dedup.erase a).map (fun x => m.count x) := by
      apply Multiset.map_congr rfl
      intro x hx
      have hxa : x ≠ a := ((Multiset.nodup_dedup m).mem_erase_iff.1 hx).1
      rw [Multiset.count_erase_of_ne hxa]
    rw [hcongr, map_erase_of_mem _ _ a hadm]
  · -- count a ≥ 2: the slot persists, decremented
    have h2 : 2 ≤ m.count a := h2
    have hfilter : Multiset.filter (fun c => 0 < c) ({m.count a - 1} : Multiset ℕ)
        = {m.count a - 1} := by
      rw [Multiset.filter_singleton, if_pos (show 0 < m.count a - 1 by omega)]
    rw [hfilter]
    unfold cntMs
    rw [dedup_erase_of_two_le h2]
    rw [show m.dedup = a ::ₘ m.dedup.erase a from (Multiset.cons_erase hadm).symm]
    rw [Multiset.map_cons, Multiset.map_cons]
    have hcongr : (m.dedup.erase a).map (fun x => (m.erase a).count x)
        = (m.dedup.erase a).map (fun x => m.count x) := by
      apply Multiset.map_congr rfl
      intro x hx
      have hxa : x ≠ a := ((Multiset.nodup_dedup m).mem_erase_iff.1 hx).1
      rw [Multiset.count_erase_of_ne hxa]
    rw [hcongr, Multiset.count_erase_self]
    rw [map_erase_of_mem _ _ a hadm]
    rw [add_comm, Multiset.singleton_add]
    congr 1
    rw [Multiset.erase_cons_head]

theorem count_mem_cntMs_erase {m : Multiset ℕ} {a b : ℕ} (ha : a ∈ m) (hb : b ∈ m)
    (hab : a ≠ b) : m.count b ∈ (cntMs m).erase (m.count a) := by
  rw [← Multiset.count_pos]
  rcases eq_or_ne (m.count b) (m.count a) with hc | hc
  · rw [hc, Multiset.count_erase_self]
    have h2 : 2 ≤ Multiset.count (m.count a) (cntMs m) := by
      rw [cntMs, Multiset.count_map]
      have hsub : ({a, b} : Multiset ℕ)
          ≤ Multiset.filter (fun x => m.count a = m.count x) m.dedup := by
        rw [Multiset.le_iff_count]
        intro y
        have hfn : (Multiset.filter (fun x => m.count a = m.count x) m.dedup).Nodup :=
          (Multiset.nodup_dedup m).filter _
        rcases eq_or_ne y a with rfl | hya
        · have hmem : y ∈ Multiset.filter (fun x => m.count y = m.count x) m.dedup :=
            Multiset.mem_filter.2 ⟨Multiset.mem_dedup.2 ha, rfl⟩
          have : Multiset.count y ({y, b} : Multiset ℕ) = 1 := by
            rw [Multiset.insert_eq_cons, Multiset.count_cons_self]
            simp [Multiset.count_singleton, hab]
          rw [this]
          exact Multiset.count_pos.2 hmem
        · rcases eq_or_ne y b with rfl | hyb
          · have hmem : y ∈ Multiset.filter (fun x => m.count a = m.count x) m.dedup :=
              Multiset.mem_filter.2 ⟨Multiset.mem_dedup.2 hb, hc.symm⟩
            have : Multiset.count y ({a, y} : Multiset ℕ) = 1 := by
              rw [Multiset.insert_eq_cons, Multiset.count_cons_of_ne hya]
              simp [Multiset.count_singleton]
            rw [this]
            exact Multiset.count_pos.2 hmem
          · have : Multiset.count y ({a, b} : Multiset ℕ) = 0 := by
              simp [Multiset.insert_eq_cons, Multiset.count_cons, Multiset.count_singleton,
                hya, hyb]
            rw [this]
            omega
      have hcard := Multiset.card_le_card hsub
      simpa using hcard
    omega
  · rw [Multiset.count_erase_of_ne hc]
    have hmem : m.count b ∈ cntMs m :=
      Multiset.mem_map_of_mem _ (Multiset.mem_dedup.2 hb)
    exact Multiset.count_pos.2 hmem

theorem cntMs_erase_erase (m : Multiset ℕ) (a b : ℕ) (ha : a ∈ m) (hb : b ∈ m)
    (hab : a ≠ b) :
    cntMs ((m.erase a).erase b)
      = ((cntMs m).erase (m.count a)).erase (m.count b)
        + Multiset.filter (fun c => 0 < c) {m.count a - 1}
        + Multiset.filter (fun c => 0 < c) {m.count b - 1} := by
  have hba : b ≠ a := fun h => hab h.symm
  have hbea : b ∈ m.erase a := (Multiset.mem_erase_of_ne hba).2 hb
  have hcountb : (m.erase a).count b = m.count b := Multiset.count_erase_of_ne hba m
  rw [cntMs_erase (m.erase a) b hbea, cntMs_erase m a ha, hcountb,
    Multiset.erase_add_left_pos _ (count_mem_cntMs_erase ha hb hab)]

/-- Removing one token each of two distinct ranks from the concrete deck
corresponds, at the canonical abstract level, to decrementing the two
selected counts and dropping non-positive results. -/
theorem absMs_erase_erase (m : Multiset ℕ) (a b : ℕ) (ha : a ∈ m) (hb : b ∈ m)
    (hab : a ≠ b) :
    absMs ((m.erase a).erase b)
      = sortLst (Multiset.filter (fun c => 0 < c)
          ((m.count a - 1) ::ₘ (m.count b - 1)
            ::ₘ ((cntMs m).erase (m.count a)).erase (m.count b))) := by
  unfold absMs
  congr 1
  rw [cntMs_erase_erase m a b ha hb hab, Multiset.filter_cons, Multiset.filter_cons]
  have hE : Multiset.filter (fun c => 0 < c)
      (((cntMs m).erase (m.count a)).erase (m.count b))
      = ((cntMs m).erase (m.count a)).erase (m.count b) := by
    rw [Multiset.filter_eq_self]
    intro c hc
    exact one_le_of_mem_cntMs c (Multiset.mem_of_mem_erase (Multiset.mem_of_mem_erase hc))
  rw [hE, Multiset.filter_singleton, Multiset.filter_singleton]
  have hz : (∅ : Multiset ℕ) = 0 := rfl
  rw [hz]
  abel

/-- The count-multiset slots remaining after removing the slots of two
distinct values. -/
theorem cntMs_slot_erase_erase (m : Multiset ℕ) (a b : ℕ) (ha : a ∈ m.dedup)
    (hb : b ∈ m.dedup) (hab : a ≠ b) :
    ((m.dedup.erase a).erase b).map (fun x => m.count x)
      = ((cntMs m).erase (m.count a)).erase (m.count b) := by
  have hb' : b ∈ m.dedup.erase a :=
    (Multiset.nodup_dedup m).mem_erase_iff.2 ⟨fun h => hab h.symm, hb⟩
  rw [map_erase_of_mem _ _ b hb', map_erase_of_mem _ _ a ha]
  rfl

/-! ### Grouping selection sums by value -/

theorem SSM_group (Ψ : ℕ → Multiset ℕ → ℚ) (m : Multiset ℕ) :
    SSM Ψ m = ∑ a ∈ m.toFinset, (m.count a : ℚ) * Ψ a (m.erase a) := by
  unfold SSM
  rw [Finset.sum_multiset_map_count]
  apply Finset.sum_congr rfl
  intro a _
  rw [nsmul_eq_mul]

theorem DSM_group (φ : ℕ → ℕ → Multiset ℕ → ℚ) (hdiag : ∀ a r, φ a a r = 0)
    (m : Multiset ℕ) :
    DSM φ m = ∑ a ∈ m.toFinset, ∑ b ∈ m.toFinset,
      (m.count a : ℚ) * (m.count b : ℚ) * φ a b ((m.erase a).erase b) := by
  unfold DSM
  rw [SSM_group]
  apply Finset.sum_congr rfl
  intro a haT
  rw [SSM_group, Finset.mul_sum]
  have hsub : (m.erase a).toFinset ⊆ m.toFinset := by
    intro x hx
    rw [Multiset.mem_toFinset] at hx ⊢
    exact Multiset.mem_of_mem_erase hx
  rw [Finset.sum_subset hsub (by
    intro x _ hx
    rw [Multiset.mem_toFinset] at hx
    have : (m.erase a).count x = 0 := by
      rcases Nat.eq_zero_or_pos ((m.erase a).count x) with h | h
      · exact h
      · exact absurd (Multiset.count_pos.1 h) hx
    rw [this]
    push_cast
    ring)]
  apply Finset.sum_congr rfl
  intro b _
  rcases eq_or_ne b a with rfl | hba
  · rw [hdiag]
    ring
  · rw [Multiset.count_erase_of_ne hba]
    ring

theorem sum_dedup_toFinset (g : ℕ → ℚ) (m : Multiset ℕ) :
    (m.dedup.map g).sum = ∑ a ∈ m.toFinset, g a := by
  rw [Finset.sum_eq_multiset_sum, Multiset.toFinset_val]

theorem sum_dedup_erase_toFinset (g : ℕ → ℚ) (m : Multiset ℕ) (a : ℕ) :
    ((m.dedup.erase a).map g).sum = ∑ b ∈ m.toFinset.erase a, g b := by
  rw [Finset.sum_eq_multiset_sum, Finset.erase_val, Multiset.toFinset_val]

theorem SSM_map_reindex (Ψ : ℕ → Multiset ℕ → ℚ) (f : ℕ → ℕ) (μ : Multiset ℕ) :
    SSM Ψ (μ.map f) = (μ.map (fun a => Ψ (f a) ((μ.erase a).map f))).sum := by
  unfold SSM
  rw [Multiset.map_map]
  apply congrArg
  apply Multiset.map_congr rfl
  intro a ha
  simp only [Function.comp]
  rw [map_erase_of_mem f μ a ha]

theorem DSM_map_reindex (Φ : ℕ → ℕ → Multiset ℕ → ℚ) (f : ℕ → ℕ) (μ : Multiset ℕ) :
    DSM Φ (μ.map f)
      = (μ.map (fun a => ((μ.erase a).map
          (fun b => Φ (f a) (f b) (((μ.erase a).erase b).map f))).sum)).sum := by
  unfold DSM
  rw [SSM_map_reindex]
  apply congrArg
  apply Multiset.map_congr rfl
  intro a _
  rw [SSM_map_reindex]

/-- Replacing a sum over `T.erase a` by a guarded sum over `T`. -/
theorem sum_erase_eq_sum_ite (T : Finset ℕ) (a : ℕ) (g : ℕ → ℚ) :
    ∑ b ∈ T.erase a, g b = ∑ b ∈ T, if b ≠ a then g b else 0 := by
  have hse := @Finset.sum_erase ℕ ℚ _ _ T (fun b => if b ≠ a then g b else 0) a (by simp)
  rw [← hse]
  apply Finset.sum_congr rfl
  intro b hb
  show g b = if b ≠ a then g b else 0
  rw [if_pos (Finset.mem_erase.1 hb).1]

/-- Splitting a symmetric off-diagonal double sum into its two strict
orientations. -/
theorem two_mul_lt_sum_eq_offdiag_sum (T : Finset ℕ) (X : ℕ → ℕ → ℚ)
    (hsym : ∀ a b, X a b = X b a) :
    2 * (∑ a ∈ T, ∑ b ∈ T, if b < a then X a b else 0)
      = ∑ a ∈ T, ∑ b ∈ T, if b ≠ a then X a b else 0 := by
  have hswap : (∑ a ∈ T, ∑ b ∈ T, if b < a then X a b else 0)
      = ∑ a ∈ T, ∑ b ∈ T, if a < b then X a b else 0 := by
    rw [Finset.sum_comm]
    apply Finset.sum_congr rfl
    intro a _
    apply Finset.sum_congr rfl
    intro b _
    rw [hsym]
  have hsplit : (∑ a ∈ T, ∑ b ∈ T, if b ≠ a then X a b else 0)
      = (∑ a ∈ T, ∑ b ∈ T, if b < a then X a b else 0)
        + ∑ a ∈ T, ∑ b ∈ T, if a < b then X a b else 0 := by
    rw [← Finset.sum_add_distrib]
    apply Finset.sum_congr rfl
    intro a _
    rw [← Finset.sum_add_distrib]
    apply Finset.sum_congr rfl
    intro b _
    rcases lt_trichotomy a b with h | h | h
    · rw [if_pos (by omega : b ≠ a), if_neg (by omega), if_pos h]
      ring
    · rw [if_neg (by omega : ¬ b ≠ a), if_neg (by omega), if_neg (by omega)]
      ring
    · rw [if_pos (by omega : b ≠ a), if_pos h, if_neg (by omega)]
      ring
  rw [hsplit, ← hswap]
  ring

/-! ### The abstract per-state sweep value -/

/-- The value computed by `k` iterations of `play_turn` from a unit mass on
state `s`. -/
def sweepA : ℕ → AbDeck → ℚ
  | 0, _ => 1
  | k + 1, s =>
      ((combinations2 s.length).map
        (fun ij => (s.getD ij.1 0 : ℚ) / (s.sum : ℚ) * (s.getD ij.2 0 : ℚ)
          / ((s.sum : ℚ) - 1) * sweepA k (remove s [ij.1, ij.2]))).sum

theorem total_iterate_eq_totalW (k : ℕ) (P : PDist) :
    total (play_turn^[k] P) = totalW (sweepA k) P := by
  induction k generalizing P with
  | zero =>
      rw [Function.iterate_zero_apply, total_eq_totalW]
      rfl
  | succ k ih =>
      rw [Function.iterate_succ_apply, ih, totalW_play_turn]
      unfold totalW
      apply congrArg
      apply List.map_congr_left
      intro e _
      show _ = e.2 * sweepA (k + 1) e.1
      rw [show sweepA (k + 1) e.1 = ((combinations2 e.1.length).map
        (fun ij => (e.1.getD ij.1 0 : ℚ) / (e.1.sum : ℚ) * (e.1.getD ij.2 0 : ℚ)
          / ((e.1.sum : ℚ) - 1) * sweepA k (remove e.1 [ij.1, ij.2]))).sum from rfl]
      rw [← List.sum_map_mul_left]
      apply congrArg
      apply List.map_congr_left
      intro ij _
      rw [turnMass_eq]
      ring

theorem p_sweep_eq_sweepA (s0 : AbDeck) : p_sweep s0 = sweepA (s0.sum / 2) s0 := by
  unfold p_sweep
  rw [total_iterate_eq_totalW]
  unfold totalW
  simp

theorem countP_bool_and (c : Bool) (L : List (List ℕ)) :
    L.countP (fun q => c && sweepB q) = if c then L.countP sweepB else 0 := by
  cases c
  · simp
  · simp

theorem sweepB_cons_cons (x y : ℕ) (q : List ℕ) :
    sweepB (x :: y :: q) = (decide (y < x) && sweepB q) := rfl

/-- The sweep count satisfies the two-step selection recursion: choose A's
card by position, then B's card by position in the remainder. -/
theorem SC_two_step (l : List ℕ) (hlen : 2 ≤ l.length) :
    SC l = ((List.range l.length).map (fun i =>
      ((List.range (l.eraseIdx i).length).map (fun j =>
        if (l.eraseIdx i).getD j 0 < l.getD i 0
        then SC ((l.eraseIdx i).eraseIdx j) else 0)).sum)).sum := by
  have hne : l ≠ [] := by
    intro h
    rw [h] at hlen
    simp at hlen
  unfold SC
  rw [permutations_of_ne_nil hne, List.countP_flatMap]
  apply congrArg
  apply List.map_congr_left
  intro i hi
  simp only [Function.comp_def, List.countP_map]
  have hne2 : l.eraseIdx i ≠ [] := by
    intro h
    have := congrArg List.length h
    rw [List.length_eraseIdx, if_pos (List.mem_range.1 hi)] at this
    simp at this
    omega
  rw [permutations_of_ne_nil hne2, List.countP_flatMap]
  apply congrArg
  apply List.map_congr_left
  intro j _
  simp only [Function.comp_def, List.countP_map, sweepB_cons_cons]
  rw [countP_bool_and]
  simp only [decide_eq_true_eq]

/-! ### The abstract transition summand in canonical multiset form -/

/-- The summand of `sweepA (k+1)` expressed on the selected pair of counts
`x, y` and the multiset `ρ` of remaining counts. -/
def PhiA (k : ℕ) (N : ℚ) : ℕ → ℕ → Multiset ℕ → ℚ := fun x y ρ =>
  (x : ℚ) / N * (y : ℚ) / (N - 1)
    * sweepA k (sortLst (Multiset.filter (fun c => 0 < c) ((x - 1) ::ₘ (y - 1) ::ₘ ρ)))

theorem PhiA_symm (k : ℕ) (N : ℚ) : ∀ a b r, PhiA k N a b r = PhiA k N b a r := by
  intro a b r
  unfold PhiA
  rw [Multiset.cons_swap]
  ring

theorem sweepA_succ_S2 (k : ℕ) (L : AbDeck) :
    sweepA (k + 1) L = S2 (PhiA k (L.sum : ℚ)) L := by
  show ((combinations2 L.length).map _).sum = _
  unfold S2
  apply congrArg
  apply List.map_congr_left
  intro pq hpq
  have hmem := mem_combinations2.1 hpq
  rw [remove_eq_canon L pq.1 pq.2 hmem.1 hmem.2]
  rfl

theorem sum_absMs (m : Multiset ℕ) : (absMs m).sum = Multiset.card m := by
  have h1 : (absMs m).sum = (cntMs m).sum := by
    have h2 := congrArg Multiset.sum (coe_sortLst (cntMs m))
    rw [← h2]
    rfl
  rw [h1]
  unfold cntMs
  rw [show m.dedup = m.toFinset.val from (Multiset.toFinset_val m).symm,
    ← Finset.sum_eq_multiset_sum]
  exact Multiset.toFinset_sum_count_eq m

/-- The doubled abstract transition sum, grouped by the pair of selected
ranks of the concrete deck. -/
theorem grouped_PhiA (k : ℕ) (N : ℚ) (m : Multiset ℕ) :
    DSM (PhiA k N) (cntMs m)
      = ∑ a ∈ m.toFinset, ∑ b ∈ m.toFinset,
          (if b ≠ a then (m.count a : ℚ) / N * (m.count b : ℚ) / (N - 1)
            * sweepA k (absMs ((m.erase a).erase b)) else 0) := by
  unfold cntMs
  rw [DSM_map_reindex, sum_dedup_toFinset]
  apply Finset.sum_congr rfl
  intro a haT
  rw [sum_dedup_erase_toFinset, sum_erase_eq_sum_ite]
  apply Finset.sum_congr rfl
  intro b hbT
  rcases eq_or_ne b a with rfl | hne
  · rw [if_neg (by simp), if_neg (by simp)]
  · rw [if_pos hne, if_pos hne]
    have ham : a ∈ m := Multiset.mem_toFinset.1 haT
    have hbm : b ∈ m := Multiset.mem_toFinset.1 hbT
    have hab : a ≠ b := fun h => hne h.symm
    unfold PhiA
    rw [cntMs_slot_erase_erase m a b (Multiset.mem_dedup.2 ham)
      (Multiset.mem_dedup.2 hbm) hab,
      ← absMs_erase_erase m a b ham hbm hab]

theorem clear_denoms_term (N x y S : ℚ) (hN0 : N ≠ 0) (hN1 : N - 1 ≠ 0) :
    N * (N - 1) * (x / N * y / (N - 1) * S) = x * y * S := by
  field_simp

/-- Doubled and regrouped, the abstract one-turn expansion matches the
value-pair sum of the concrete one-turn expansion, up to the factorial
normalization. -/
theorem abstract_side (n : ℕ) (m : Multiset ℕ) (hcard : Multiset.card m = 2 * n + 2) :
    ((Nat.factorial (2 * n + 2) : ℕ) : ℚ) * sweepA (n + 1) (absMs m)
      = ((Nat.factorial (2 * n) : ℕ) : ℚ)
        * DSM (fun a b r => if b < a then sweepA n (absMs r) else 0) m := by
  have hsumL : (absMs m).sum = 2 * n + 2 := by rw [sum_absMs, hcard]
  have hn0 : (0 : ℚ) ≤ (n : ℚ) := Nat.cast_nonneg n
  have hG2sym : ∀ a b : ℕ, absMs ((m.erase a).erase b) = absMs ((m.erase b).erase a) := by
    intro a b
    rw [Multiset.erase_comm]
  have h2A : 2 * sweepA (n + 1) (absMs m)
      = ∑ a ∈ m.toFinset, ∑ b ∈ m.toFinset,
          (if b ≠ a then (m.count a : ℚ) / ((2 * n + 2 : ℕ) : ℚ) * (m.count b : ℚ)
              / (((2 * n + 2 : ℕ) : ℚ) - 1)
            * sweepA n (absMs ((m.erase a).erase b)) else 0) := by
    rw [sweepA_succ_S2, hsumL, two_S2_eq_DSM (absMs m) _ (PhiA_symm n _),
      show (↑(absMs m) : Multiset ℕ) = cntMs m from coe_sortLst (cntMs m)]
    exact grouped_PhiA n _ m
  have hN0 : ((2 * n + 2 : ℕ) : ℚ) ≠ 0 := by positivity
  have hN1 : ((2 * n + 2 : ℕ) : ℚ) - 1 ≠ 0 := by
    have h : (0 : ℚ) < ((2 * n + 2 : ℕ) : ℚ) - 1 := by push_cast; linarith
    exact ne_of_gt h
  have hWsum : ((2 * n + 2 : ℕ) : ℚ) * (((2 * n + 2 : ℕ) : ℚ) - 1)
      * (∑ a ∈ m.toFinset, ∑ b ∈ m.toFinset,
          (if b ≠ a then (m.count a : ℚ) / ((2 * n + 2 : ℕ) : ℚ) * (m.count b : ℚ)
              / (((2 * n + 2 : ℕ) : ℚ) - 1)
            * sweepA n (absMs ((m.erase a).erase b)) else 0))
      = ∑ a ∈ m.toFinset, ∑ b ∈ m.toFinset,
          (if b ≠ a then (m.count a : ℚ) * (m.count b : ℚ)
            * sweepA n (absMs ((m.erase a).erase b)) else 0) := by
    rw [Finset.mul_sum]
    apply Finset.sum_congr rfl
    intro a _
    rw [Finset.mul_sum]
    apply Finset.sum_congr rfl
    intro b _
    rw [mul_ite, mul_zero]
    split_ifs with h
    · exact clear_denoms_term _ _ _ _ hN0 hN1
    · rfl
  have hdiag : ∀ (a : ℕ) (r : Multiset ℕ),
      (fun a b r => if b < a then sweepA n (absMs r) else 0) a a r = 0 := by
    intro a r
    exact if_neg (lt_irrefl a)
  have hDSMg : DSM (fun a b r => if b < a then sweepA n (absMs r) else 0) m
      = ∑ a ∈ m.toFinset, ∑ b ∈ m.toFinset,
          (if b < a then (m.count a : ℚ) * (m.count b : ℚ)
            * sweepA n (absMs ((m.erase a).erase b)) else 0) := by
    rw [DSM_group _ hdiag m]
    apply Finset.sum_congr rfl
    intro a _
    apply Finset.sum_congr rfl
    intro b _
    rw [mul_ite, mul_zero]
  have hlt : 2 * (∑ a ∈ m.toFinset, ∑ b ∈ m.toFinset,
        (if b < a then (m.count a : ℚ) * (m.count b : ℚ)
          * sweepA n (absMs ((m.erase a).erase b)) else 0))
      = ∑ a ∈ m.toFinset, ∑ b ∈ m.toFinset,
          (if b ≠ a then (m.count a : ℚ) * (m.count b : ℚ)
            * sweepA n (absMs ((m.erase a).erase b)) else 0) :=
    two_mul_lt_sum_eq_offdiag_sum m.toFinset
      (fun a b => (m.count a : ℚ) * (m.count b : ℚ)
        * sweepA n (absMs ((m.erase a).erase b)))
      (fun a b => by
        show (m.count a : ℚ) * (m.count b : ℚ) * sweepA n (absMs ((m.erase a).erase b))
          = (m.count b : ℚ) * (m.count a : ℚ) * sweepA n (absMs ((m.erase b).erase a))
        rw [hG2sym a b]
        ring)
  have hfac : ((Nat.factorial (2 * n + 2) : ℕ) : ℚ)
      = ((2 * n + 2 : ℕ) : ℚ) * (((2 * n + 2 : ℕ) : ℚ) - 1)
        * ((Nat.factorial (2 * n) : ℕ) : ℚ) := by
    have h1 : Nat.factorial (2 * n + 2) = (2 * n + 2) * ((2 * n + 1) * Nat.factorial (2 * n)) := by
      rw [show 2 * n + 2 = (2 * n + 1) + 1 from rfl, Nat.factorial_succ, Nat.factorial_succ]
    rw [h1]
    push_cast
    ring
  rw [hfac, hDSMg]
  linear_combination
    (((Nat.factorial (2 * n) : ℕ) : ℚ) * ((2 * n + 2 : ℕ) : ℚ)
      * (((2 * n + 2 : ℕ) : ℚ) - 1) / 2) * h2A
    + (((Nat.factorial (2 * n) : ℕ) : ℚ) / 2) * hWsum
    - (((Nat.factorial (2 * n) : ℕ) : ℚ) / 2) * hlt

/-- The cast sweep count, as the selection double sum over the concrete
deck, in multiset form. -/
theorem SC_cast_DSM (l : List ℕ) (hlen : 2 ≤ l.length) (K : ℚ) (F : Multiset ℕ → ℚ)
    (hF : ∀ l2 : List ℕ, l2.length = l.length - 2 → (SC l2 : ℚ) = K * F ↑l2) :
    (SC l : ℚ) = K * DSM (fun a b r => if b < a then F r else 0) ↑l := by
  have hR : DSM (fun a b r => if b < a then F r else 0) (↑l : Multiset ℕ)
      = ((List.range l.length).map (fun i =>
          ((List.range (l.eraseIdx i).length).map (fun j =>
            if (l.eraseIdx i).getD j 0 < l.getD i 0
            then F (↑((l.eraseIdx i).eraseIdx j) : Multiset ℕ) else 0)).sum)).sum := by
    rw [show DSM (fun a b r => if b < a then F r else 0) (↑l : Multiset ℕ)
        = SSM (fun a r => SSM (fun b r2 => if b < a then F r2 else 0) r) ↑l from rfl,
      ← SSL_eq_SSM]
    unfold SSL
    apply congrArg
    apply List.map_congr_left
    intro i _
    show SSM (fun b r2 => if b < l.getD i 0 then F r2 else 0) ↑(l.eraseIdx i)
      = (List.map (fun j => if (l.eraseIdx i).getD j 0 < l.getD i 0
          then F (↑((l.eraseIdx i).eraseIdx j) : Multiset ℕ) else 0)
          (List.range (l.eraseIdx i).length)).sum
    rw [← SSL_eq_SSM]
    rfl
  rw [SC_two_step l hlen, hR, Nat.cast_list_sum, List.map_map, ← List.sum_map_mul_left]
  apply congrArg
  apply List.map_congr_left
  intro i hi
  simp only [Function.comp_def]
  rw [Nat.cast_list_sum, List.map_map, ← List.sum_map_mul_left]
  apply congrArg
  apply List.map_congr_left
  intro j hj
  simp only [Function.comp_def]
  have hlen2 : ((l.eraseIdx i).eraseIdx j).length = l.length - 2 := by
    have hi2 := List.mem_range.1 hi
    have hj2 := List.mem_range.1 hj
    have h1 : (l.eraseIdx i).length = l.length - 1 := by
      rw [List.length_eraseIdx, if_pos hi2]
    rw [List.length_eraseIdx, if_pos hj2, h1]
    omega
  rw [apply_ite (fun x : ℕ => (x : ℚ)), hF _ hlen2]
  split_ifs with h
  · rfl
  · simp

/-! ### The main counting identity: oracle count = n! × abstract probability -/

theorem main_count_eq : ∀ n : ℕ, ∀ l : List ℕ, l.length = 2 * n →
    (SC l : ℚ) = ((Nat.factorial l.length : ℕ) : ℚ) * sweepA n (absMs ↑l) := by
  intro n
  induction n with
  | zero =>
      intro l hl
      have hnil : l = [] := List.length_eq_zero.mp (by omega)
      subst hnil
      have h1 : SC ([] : List ℕ) = 1 := by decide
      rw [h1]
      show ((1 : ℕ) : ℚ) = ((Nat.factorial 0 : ℕ) : ℚ) * 1
      norm_num [Nat.factorial]
  | succ n ih =>
      intro l hl
      have hlen2 : 2 ≤ l.length := by omega
      have hF : ∀ l2 : List ℕ, l2.length = l.length - 2 →
          (SC l2 : ℚ) = ((Nat.factorial (2 * n) : ℕ) : ℚ) * sweepA n (absMs ↑l2) := by
        intro l2 h2
        have h3 : l2.length = 2 * n := by omega
        rw [ih l2 h3, h3]
      have h1 := SC_cast_DSM l hlen2 ((Nat.factorial (2 * n) : ℕ) : ℚ)
        (fun r => sweepA n (absMs r)) hF
      have h2 := abstract_side n (↑l : Multiset ℕ) (by rw [Multiset.coe_card]; omega)
      rw [hl, show 2 * (n + 1) = 2 * n + 2 from by ring, h2]
      exact h1

/-! ### The concrete deck of a configuration abstracts to its abstract deck -/

theorem length_make_deck (r s : ℕ) : (make_deck r s).length = r * s := by
  unfold make_deck
  rw [List.length_flatMap]
  have h : List.map (List.length ∘ fun k => List.replicate s (k + 1)) (List.range r)
      = List.replicate r s := by
    apply List.eq_replicate_iff.mpr
    constructor
    · simp
    · intro b hb
      rcases List.mem_map.1 hb with ⟨k, _, hk⟩
      simpa [Function.comp] using hk.symm
  rw [h]
  exact List.sum_const_nat r s

theorem count_make_deck (r s v : ℕ) :
    (make_deck r s).count v = if 1 ≤ v ∧ v ≤ r then s else 0 := by
  induction r with
  | zero =>
      have h : ¬ (1 ≤ v ∧ v ≤ 0) := by omega
      rw [if_neg h]
      simp [make_deck]
  | succ r ih =>
      have hsplit : make_deck (r + 1) s = make_deck r s ++ List.replicate s (r + 1) := by
        unfold make_deck
        rw [List.range_succ, List.flatMap_append]
        simp
      rw [hsplit, List.count_append, ih, List.count_replicate]
      rcases eq_or_ne (r + 1) v with heq | hne
      · rw [if_pos (show ((r + 1 : ℕ) == v) = true by simp [heq])]
        split_ifs <;> omega
      · rw [if_neg (show ¬ (((r + 1 : ℕ) == v) = true) by simp [hne])]
        split_ifs <;> omega

theorem dedup_make_deck (r s : ℕ) (hs : 1 ≤ s) :
    (↑(make_deck r s) : Multiset ℕ).dedup = ↑((List.range r).map (fun k => k + 1)) := by
  apply Multiset.ext.mpr
  intro a
  rw [Multiset.count_dedup, Multiset.coe_count]
  have hnd : ((List.range r).map (fun k => k + 1)).Nodup :=
    (List.nodup_range r).map (fun x y h => by simpa using h)
  rcases em (1 ≤ a ∧ a ≤ r) with hc | hc
  · have hcnt := count_make_deck r s a
    rw [if_pos hc] at hcnt
    have hmem : a ∈ make_deck r s := by
      have hpos : 0 < (make_deck r s).count a := by omega
      exact List.count_pos_iff.mp hpos
    rw [if_pos (Multiset.mem_coe.mpr hmem)]
    have hmem2 : a ∈ (List.range r).map (fun k => k + 1) :=
      List.mem_map.mpr ⟨a - 1, List.mem_range.mpr (by omega), by omega⟩
    exact (List.count_eq_one_of_mem hnd hmem2).symm
  · have hcnt := count_make_deck r s a
    rw [if_neg hc] at hcnt
    have hmem : a ∉ make_deck r s := List.count_eq_zero.mp hcnt
    rw [if_neg (fun hx => hmem (Multiset.mem_coe.mp hx))]
    have hmem2 : a ∉ (List.range r).map (fun k => k + 1) := by
      intro hm
      rcases List.mem_map.1 hm with ⟨k, hk, hka⟩
      have hk2 := List.mem_range.1 hk
      exact hc ⟨by omega, by omega⟩
    exact (List.count_eq_zero.mpr hmem2).symm

theorem cntMs_make_deck (r s : ℕ) (hs : 1 ≤ s) :
    cntMs (↑(make_deck r s)) = Multiset.replicate r s := by
  unfold cntMs
  rw [dedup_make_deck r s hs, Multiset.map_coe, ← Multiset.coe_replicate, List.map_map]
  apply congrArg
  apply List.eq_replicate_iff.mpr
  constructor
  · simp
  · intro b hb
    rcases List.mem_map.1 hb with ⟨k, hk, hkb⟩
    have hk2 := List.mem_range.1 hk
    subst hkb
    show Multiset.count (k + 1) (↑(make_deck r s) : Multiset ℕ) = s
    rw [Multiset.coe_count, count_make_deck, if_pos ⟨by omega, by omega⟩]

theorem absMs_make_deck (r s : ℕ) (hs : 1 ≤ s) :
    absMs (↑(make_deck r s)) = make_abdeck r s := by
  unfold absMs make_abdeck
  rw [cntMs_make_deck r s hs, ← Multiset.coe_replicate, ← insertionSort_eq_sortLst]
  exact List.Sorted.insertionSort_eq (sorted_replicate r s)

/-- C1: for every valid deck configuration with positive rank and suit
counts, even total token count, and total token count at most 10
(covering rankCount=2,suitCount=1; 4,1; 2,2; 5,2), the abstract
incremental computation `p_sweep (make_abdeck r s)` equals the
brute-force oracle value `p_sweeps (permutations (make_deck r s))`
exactly, over exact rationals. -/
theorem oracle_equivalence (r s : ℕ) (hr : 0 < r) (hs : 0 < s)
    (he : Even (make_deck r s).length) (hle : (make_deck r s).length ≤ 10) :
    p_sweeps (permutations (make_deck r s)) = some (p_sweep (make_abdeck r s)) := by
  obtain ⟨n, hn⟩ := he
  have hl : (make_deck r s).length = 2 * n := by omega
  have hfa : ((Nat.factorial (make_deck r s).length : ℕ) : ℚ) ≠ 0 := by
    exact_mod_cast Nat.factorial_ne_zero _
  rw [p_sweeps_permutations _ ⟨n, hn⟩, main_count_eq n (make_deck r s) hl,
    mul_div_cancel_left₀ _ hfa, absMs_make_deck r s hs, p_sweep_eq_sweepA]
  have hsum : (make_abdeck r s).sum = 2 * n := by
    have h1 : (make_abdeck r s).sum = r * s := by
      unfold make_abdeck
      exact List.sum_const_nat r s
    have h2 := length_make_deck r s
    omega
  have h22 : 2 * n / 2 = n := by omega
  rw [hsum, h22]

theorem oracle_equivalence_witness :
    0 < 2 ∧ 0 < 1 ∧ Even (make_deck 2 1).length ∧ (make_deck 2 1).length ≤ 10 ∧
      p_sweeps (permutations (make_deck 2 1)) = some (p_sweep (make_abdeck 2 1)) :=
  ⟨by decide, by decide, by decide, by decide,
    oracle_equivalence 2 1 (by decide) (by decide) (by decide) (by decide)⟩

end War
